import Mathlib

/-!
The repository facade `metadata/metarepo.go` of metad.

A shallow embedding of `MetadataRepo` (projection engine, mapping validation,
root composition, result coalescer, watching, deleting) together with the
properties its specification states.

* Go strings are `String`; the path helpers of the Go standard library
  (`path.Clean`, `path.Join`, `strings.Split(_, "/")`) are embedded on the
  character list of the string.
* A Go `map[string]interface{}` is an association list; `m[k]` finds the first
  entry with key `k`, `m[k] = v` drops the entries with key `k` and adds `(k, v)`,
  and `range m` visits the entries in list order.
* The two in-memory stores and the backend client are interfaces whose
  implementation is outside `metarepo.go`; they are parameters of the embedding.
  Every function returns, next to its Go result, the ordered list of store and
  backend operations it performed.
* A watching call runs on the stream of outcomes that its `select` statement is
  given by the environment: watcher events, channel close, timer and stop.
-/

namespace Metad

/-! ## Go standard library: `strings.Split`, `strings.Join`, `path.Clean`, `path.Join` -/

/-- Go `strings.Split(s, "/")` on the characters of `s`. -/
def splitSlash : List Char → List (List Char)
  | [] => [[]]
  | c :: cs =>
    if c = '/' then [] :: splitSlash cs
    else
      match splitSlash cs with
      | [] => [[c]]
      | h :: t => (c :: h) :: t

/-- Go `strings.Join(elems, "/")` on character lists. -/
def joinSlash : List (List Char) → List Char
  | [] => []
  | [x] => x
  | x :: y :: rest => x ++ '/' :: joinSlash (y :: rest)

/-- One iteration of the scanning loop of `path.Clean`, on whole path elements.
`out` is the output buffer as a stack of elements (last written element first).
An empty element or `.` is skipped; `..` removes the last real element when there
is one, is appended when the path is not rooted, and is dropped at the root;
any other element is appended. -/
def cleanStep (rooted : Bool) (out : List (List Char)) (seg : List Char) : List (List Char) :=
  if seg = [] ∨ seg = ['.'] then out
  else if seg = ['.', '.'] then
    match out with
    | [] => if rooted then [] else [seg]
    | top :: below =>
      if top = ['.', '.'] then (if rooted then out else seg :: out) else below
  else seg :: out

/-- Go `path.Clean` on characters: the empty path is `.`; otherwise the elements are
scanned by `cleanStep` and written back separated by single slashes, after a
leading slash when the path is rooted; an empty unrooted result is `.`. -/
def cleanChars (p : List Char) : List Char :=
  match p with
  | [] => ['.']
  | c :: _ =>
    let out := ((splitSlash p).foldl (cleanStep (c = '/')) []).reverse
    if c = '/' then '/' :: joinSlash out
    else if out = [] then ['.'] else joinSlash out

/-- Go `path.Clean(p)`. -/
def pathClean (p : String) : String := ⟨cleanChars p.data⟩

/-- Go `path.Join(elem...)`: empty leading elements are ignored, the rest is joined
with slashes and cleaned; when every element is empty the result is empty. -/
def pathJoin (elem : List String) : String :=
  match elem.dropWhile (fun e => e = "") with
  | [] => ""
  | es => pathClean ⟨joinSlash (es.map String.data)⟩

/-- Go `strings.Split(s, "/")`. -/
def stringsSplit (s : String) : List String := (splitSlash s.data).map String.mk

/-- Go `strings.Index(s, "/") >= 0`. -/
def containsSlash (s : String) : Bool := s.data.contains '/'

/-! ## Values -/

/-- Modelled from the spec: the value type of `store.Store` (package `store` is not
part of `metarepo.go`). `Get` returns a string for a leaf and a
`map[string]interface{}` of name to (string or nested map) for a directory. -/
inductive Node where
  | leaf (s : String)
  | dir (entries : List (String × Node))
  deriving Repr

/-- A decoded request body (`interface{}`) handed to `PutMapping`: a string, a
JSON object, or any other value (number, boolean, null, array), which carries
its `%v` rendering. -/
inductive Value where
  | str (s : String)
  | other (rendering : String)
  | map (entries : List (String × Value))
  deriving Repr

/-- Go map assignment `m[k] = v` on an association list. -/
def mapSet {α : Type} (m : List (String × α)) (k : String) (v : α) : List (String × α) :=
  m.filter (fun e => e.1 ≠ k) ++ [(k, v)]

/-- Go map index `m[k]`: the value of the first entry with key `k`. -/
def mapGet {α : Type} : List (String × α) → String → Option α
  | [], _ => none
  | (k, v) :: tl, key => if k = key then some v else mapGet tl key

/-! ## Stores, backend, and the operation log -/

/-- Modelled from the spec: the part of the `store.Store` interface used here.
`Get` returns the current version and the value at a path (`none` when absent). -/
structure Store where
  Version : Int
  Get : String → Int × Option Node

/-- Modelled from the spec: "every path read or written is normalized before
use". A store resolves a path and its normalized form `path.Join("/", p)` to
the same answer. -/
def Store.Normalizes (s : Store) : Prop := ∀ p, s.Get p = s.Get (pathJoin ["/", p])

/-- Modelled from the spec: the `backends.StoreClient` interface; every write
returns a Go `error` (`none` is `nil`). -/
structure StoreClient where
  Put : String → Value → Bool → Option String
  Delete : String → Bool → Option String
  PutMapping : String → Value → Bool → Option String
  DeleteMapping : String → Bool → Option String

/-- The fields of `MetadataRepo` read by the functions below. -/
structure MetadataRepo where
  onlySelf : Bool
  mapping : Store
  storeClient : StoreClient
  data : Store

/-- An operation on a collaborator of the repository. -/
inductive Op where
  | dataGet (nodePath : String)
  | dataVersion
  | mappingGet (nodePath : String)
  | backendPut (nodePath : String) (data : Value) (replace : Bool)
  | backendDelete (nodePath : String) (dir : Bool)
  | backendPutMapping (nodePath : String) (data : Value) (replace : Bool)
  | backendDeleteMapping (nodePath : String) (dir : Bool)
  | dataWatch (nodePath : String)
  | mappingWatch (nodePath : String)
  | watcherRemove
  | mappingWatcherRemove
  | timerAcquire
  | timerRelease
  deriving Repr

/-- The outcome of running a function of the repository: the operations it
performed on the stores and the backend, in order, and either its result or the
message of the panic that aborted it. -/
structure Run (α : Type) where
  ops : List Op
  res : Except String α

/-- A run that performs nothing and returns `a`. -/
def Run.pure {α : Type} (a : α) : Run α := ⟨[], .ok a⟩

/-- Sequencing: a panic in the first part ends the run. -/
def Run.bind {α β : Type} (x : Run α) (f : α → Run β) : Run β :=
  match x.res with
  | .error e => ⟨x.ops, .error e⟩
  | .ok a => ⟨x.ops ++ (f a).ops, (f a).res⟩

instance : Monad Run where
  pure := Run.pure
  bind := Run.bind

/-- A run that performs the single operation `o`, which yields `a`. -/
def Run.perform {α : Type} (o : Op) (a : α) : Run α := ⟨[o], .ok a⟩

/-- A Go `panic`. -/
def Run.panic {α : Type} (msg : String) : Run α := ⟨[], .error msg⟩

/-! ## `metarepo.go` -/

/-- Method `MetadataRepo.GetMapping`. -/
def GetMapping (r : MetadataRepo) (nodePath : String) : Run (Option Node) :=
  Run.perform (.mappingGet nodePath) (r.mapping.Get nodePath).2

/-- Method `MetadataRepo.getMappingData`. -/
def getMappingData (r : MetadataRepo) (nodePath link : String) : Run (Option Node) :=
  let nodePath := pathJoin [link, nodePath]
  Run.perform (.dataGet nodePath) (r.data.Get nodePath).2

mutual
/-- Method `MetadataRepo.getMappingDatas`. The argument `mapping` is the Go
`map[string]interface{}`, passed as the directory node that holds it (every
caller passes a directory). -/
def getMappingDatas (r : MetadataRepo) (nodePath : String) : Node → Run (Option Node)
  | .leaf _ => Run.pure none
  | .dir mapping =>
    let nodePath := pathJoin ["/", nodePath]
    match (stringsSplit nodePath).drop 1 with
    | [] => Run.panic "index out of range"
    | elemName :: rest =>
      if elemName = "" then do
        let result ← getMappingDatas.range r mapping []
        pure (some (.dir result))
      else
        getMappingDatas.index r elemName rest mapping
/-- The loop `for k, v := range mapping` of the root case, with the map `meta`
built so far. -/
def getMappingDatas.range (r : MetadataRepo) :
    List (String × Node) → List (String × Node) → Run (List (String × Node))
  | [], result => Run.pure result
  | (k, v) :: tl, result =>
    match v with
    | .dir _ => do
      let val ← getMappingDatas r "/" v
      match val with
      | some val => getMappingDatas.range r tl (mapSet result k val)
      | none => getMappingDatas.range r tl result
    | .leaf subNodePath => do
      let val ← getMappingData r "/" subNodePath
      match val with
      | some val => getMappingDatas.range r tl (mapSet result k val)
      | none => getMappingDatas.range r tl result
/-- The map index `mapping[elemName]` of the non-root case and the dispatch on
the entry found; `rest` is `paths[1:]`. -/
def getMappingDatas.index (r : MetadataRepo) (elemName : String) (rest : List String) :
    List (String × Node) → Run (Option Node)
  | [] => Run.pure none
  | (k, v) :: tl =>
    if k = elemName then
      match v with
      | .dir _ => getMappingDatas r (pathJoin rest) v
      | .leaf link => getMappingData r (pathJoin rest) link
    else getMappingDatas.index r elemName rest tl
end

/-- Method `MetadataRepo.Self`. -/
def Self (r : MetadataRepo) (clientIP nodePath : String) : Run (Option Node) :=
  if clientIP = "" then Run.panic "clientIP must not be empty."
  else do
    let nodePath := pathJoin ["/", nodePath]
    let mappingData ← GetMapping r (pathJoin ["/", clientIP])
    match mappingData with
    | none => pure none
    | some (.leaf _) => pure none
    | some (.dir mapping) => getMappingDatas r nodePath (.dir mapping)

/-- Method `MetadataRepo.Root`: the current version and the value. -/
def Root (r : MetadataRepo) (clientIP nodePath : String) : Run (Int × Option Node) :=
  let nodePath := pathJoin ["/", nodePath]
  if r.onlySelf then do
    let currentVersion ← Run.perform .dataVersion r.data.Version
    if nodePath = "/" then do
      let selfVal ← Self r clientIP "/"
      match selfVal with
      | some selfVal => pure (currentVersion, some (.dir (mapSet [] "self" selfVal)))
      | none => pure (currentVersion, some (.dir []))
    else pure (currentVersion, none)
  else do
    let (currentVersion, val) ← Run.perform (.dataGet nodePath) (r.data.Get nodePath)
    match val with
    | none => pure (currentVersion, none)
    | some v =>
      if nodePath = "/" then do
        let selfVal ← Self r clientIP "/"
        match selfVal, v with
        | some selfVal, .dir mapVal =>
          pure (currentVersion, some (.dir (mapSet mapVal "self" selfVal)))
        | _, _ => pure (currentVersion, some v)
      else pure (currentVersion, some v)

/-- Function `checkMappingPath`. -/
def checkMappingPath : Value → Option String
  | .str vs =>
    match vs.data with
    | [] => some "mapping's value should be path ."
    | c :: _ => if c ≠ '/' then some "mapping's value should be path ." else none
  | _ => some "mapping's value should be path ."

mutual
/-- Function `checkMapping`. -/
def checkMapping : Value → Option String
  | .map m => checkMapping.range m
  | _ => some "mapping data should be json object."
/-- The loop `for k, v := range m` of `checkMapping`. -/
def checkMapping.range : List (String × Value) → Option String
  | [] => none
  | (k, v) :: tl =>
    if containsSlash k then some "mapping key should not be path."
    else
      match v with
      | .map _ =>
        match checkMapping v with
        | some err => some err
        | none => checkMapping.range tl
      | _ =>
        match checkMappingPath v with
        | some err => some err
        | none => checkMapping.range tl
end

/-- The loop `for k, v := range m` of `PutMapping` at the root. `ParseIP k`
is `net.ParseIP(k) != nil`. -/
def PutMapping.range (ParseIP : String → Bool) : List (String × Value) → Option String
  | [] => none
  | (k, v) :: tl =>
    if ParseIP k = false then some "mapping's first level key should be ip ."
    else
      match checkMapping v with
      | some err => some err
      | none => PutMapping.range ParseIP tl

/-- Method `MetadataRepo.PutMapping`; `ParseIP s` is `net.ParseIP(s) != nil`. The result
is the returned `error` (`none` is `nil`). -/
def PutMapping (ParseIP : String → Bool) (r : MetadataRepo) (nodePath : String)
    (data : Value) (replace : Bool) : Run (Option String) :=
  let nodePath := pathJoin ["/", nodePath]
  let store := Run.perform (.backendPutMapping nodePath data replace)
    (r.storeClient.PutMapping nodePath data replace)
  if nodePath = "/" then
    match data with
    | .map m =>
      match PutMapping.range ParseIP m with
      | some err => Run.pure (some err)
      | none => store
    | _ => Run.pure (some "mapping data should be json object.")
  else
    let parts := stringsSplit nodePath
    match parts[1]? with
    | none => Run.panic "index out of range"
    | some ip =>
      if ParseIP ip = false then Run.pure (some "mapping's first level key should be ip .")
      else if parts.length = 2 then
        match checkMapping data with
        | some err => Run.pure (some err)
        | none => store
      else
        match data with
        | .map _ =>
          match checkMapping data with
          | some err => Run.pure (some err)
          | none => store
        | _ =>
          match checkMappingPath data with
          | some err => Run.pure (some err)
          | none => store

/-! ## Decidable equality of values and outcomes -/

mutual
/-- Equality of store values is decidable. -/
def Node.decEq : (a b : Node) → Decidable (a = b)
  | .leaf s, .leaf t =>
    if h : s = t then isTrue (by rw [h]) else isFalse (fun e => h (Node.leaf.inj e))
  | .leaf _, .dir _ => isFalse (fun e => Node.noConfusion e)
  | .dir _, .leaf _ => isFalse (fun e => Node.noConfusion e)
  | .dir xs, .dir ys =>
    match Node.decEqEntries xs ys with
    | isTrue h => isTrue (by rw [h])
    | isFalse h => isFalse (fun e => h (Node.dir.inj e))
/-- Equality of directory contents is decidable. -/
def Node.decEqEntries : (a b : List (String × Node)) → Decidable (a = b)
  | [], [] => isTrue rfl
  | [], _ :: _ => isFalse (fun e => List.noConfusion e)
  | _ :: _, [] => isFalse (fun e => List.noConfusion e)
  | (k, v) :: xs, (k2, v2) :: ys =>
    if hk : k = k2 then
      match Node.decEq v v2 with
      | isTrue hv =>
        match Node.decEqEntries xs ys with
        | isTrue ht => isTrue (by rw [hk, hv, ht])
        | isFalse ht => isFalse (fun e => ht (List.cons.inj e).2)
      | isFalse hv => isFalse (fun e => hv (Prod.mk.inj (List.cons.inj e).1).2)
    else isFalse (fun e => hk (Prod.mk.inj (List.cons.inj e).1).1)
end

instance : DecidableEq Node := Node.decEq

mutual
/-- Equality of request bodies is decidable. -/
def Value.decEq : (a b : Value) → Decidable (a = b)
  | .str s, .str t =>
    if h : s = t then isTrue (by rw [h]) else isFalse (fun e => h (Value.str.inj e))
  | .other s, .other t =>
    if h : s = t then isTrue (by rw [h]) else isFalse (fun e => h (Value.other.inj e))
  | .map xs, .map ys =>
    match Value.decEqEntries xs ys with
    | isTrue h => isTrue (by rw [h])
    | isFalse h => isFalse (fun e => h (Value.map.inj e))
  | .str _, .other _ => isFalse (fun e => Value.noConfusion e)
  | .str _, .map _ => isFalse (fun e => Value.noConfusion e)
  | .other _, .str _ => isFalse (fun e => Value.noConfusion e)
  | .other _, .map _ => isFalse (fun e => Value.noConfusion e)
  | .map _, .str _ => isFalse (fun e => Value.noConfusion e)
  | .map _, .other _ => isFalse (fun e => Value.noConfusion e)
/-- Equality of JSON object contents is decidable. -/
def Value.decEqEntries : (a b : List (String × Value)) → Decidable (a = b)
  | [], [] => isTrue rfl
  | [], _ :: _ => isFalse (fun e => List.noConfusion e)
  | _ :: _, [] => isFalse (fun e => List.noConfusion e)
  | (k, v) :: xs, (k2, v2) :: ys =>
    if hk : k = k2 then
      match Value.decEq v v2 with
      | isTrue hv =>
        match Value.decEqEntries xs ys with
        | isTrue ht => isTrue (by rw [hk, hv, ht])
        | isFalse ht => isFalse (fun e => ht (List.cons.inj e).2)
      | isFalse hv => isFalse (fun e => hv (Prod.mk.inj (List.cons.inj e).1).2)
    else isFalse (fun e => hk (Prod.mk.inj (List.cons.inj e).1).1)
end

instance : DecidableEq Value := Value.decEq

deriving instance DecidableEq for Op

instance {ε α : Type} [DecidableEq ε] [DecidableEq α] : DecidableEq (Except ε α)
  | .ok a, .ok b => if h : a = b then isTrue (by rw [h]) else isFalse (fun e => h (Except.ok.inj e))
  | .error a, .error b =>
    if h : a = b then isTrue (by rw [h]) else isFalse (fun e => h (Except.error.inj e))
  | .ok _, .error _ => isFalse (fun e => Except.noConfusion e)
  | .error _, .ok _ => isFalse (fun e => Except.noConfusion e)

instance {α : Type} [DecidableEq α] : DecidableEq (Run α)
  | ⟨o1, r1⟩, ⟨o2, r2⟩ =>
    if ho : o1 = o2 then
      if hr : r1 = r2 then isTrue (by rw [ho, hr])
      else isFalse (fun e => hr (Run.mk.inj e).2)
    else isFalse (fun e => ho (Run.mk.inj e).1)

/-! ## Notions used by the specification -/

/-- A path element kept by `path.Clean` of a rooted path: not empty, not `.`,
not `..`, and free of slashes. -/
def NormalSeg (s : List Char) : Prop :=
  s ≠ [] ∧ s ≠ ['.'] ∧ s ≠ ['.', '.'] ∧ '/' ∉ s

/-- The elements of the rooted, cleaned form of a path, in order. -/
def normSegs (p : List Char) : List (List Char) :=
  ((splitSlash p).foldl (cleanStep true) []).reverse

/-- The segments `s1..sn` of the normalized form `path.Join("/", nodePath)`; the
root `/` has none. -/
def pathSegments (nodePath : String) : List String :=
  ((stringsSplit (pathJoin ["/", nodePath])).drop 1).filter (fun s => s ≠ "")

/-- Go `strings.Join(elems, "/")`: the text `s1/s2/../sn`. -/
def stringsJoin (elems : List String) : String := ⟨joinSlash (elems.map String.data)⟩

/-- Walking a mapping directory along segments that each name a nested
submapping; `none` as soon as a segment is missing or names a string leaf. -/
def descend : List (String × Node) → List String → Option (List (String × Node))
  | m, [] => some m
  | m, s :: rest =>
    match mapGet m s with
    | some (.dir sub) => descend sub rest
    | _ => none

mutual
/-- The composite `P(M)` of the specification: a directory entry `(k, sub)` gives
`P(M)[k] = P(sub)`; a string entry `(k, link)` gives `P(M)[k] = data.Get(link)`
when that value is present and no key when it is absent. -/
def projection (data : Store) : List (String × Node) → List (String × Node)
  | [] => []
  | (k, v) :: tl =>
    match projection.entry data v with
    | some val => (k, val) :: projection data tl
    | none => projection data tl
/-- The value that `P(M)` binds to the key of an entry of `M`, if any. -/
def projection.entry (data : Store) : Node → Option Node
  | .dir sub => some (.dir (projection data sub))
  | .leaf link => (data.Get link).2
end

mutual
/-- The keys of every directory of the value are pairwise distinct, as the keys of
a Go map are. -/
def Node.uniqueKeys : Node → Bool
  | .leaf _ => true
  | .dir entries => Node.uniqueKeys.entries entries
/-- The keys of the entries are pairwise distinct, at every depth. -/
def Node.uniqueKeys.entries : List (String × Node) → Bool
  | [] => true
  | (k, v) :: tl =>
    !(tl.any (fun e => e.1 = k)) && v.uniqueKeys && Node.uniqueKeys.entries tl
end

mutual
/-- Every leaf of the value is a string beginning with `/`. -/
def Value.leavesArePaths : Value → Bool
  | .str s => s.data.head? = some '/'
  | .other _ => false
  | .map m => Value.leavesArePaths.entries m
/-- Every leaf below the entries is a string beginning with `/`. -/
def Value.leavesArePaths.entries : List (String × Value) → Bool
  | [] => true
  | (_, v) :: tl => v.leavesArePaths && Value.leavesArePaths.entries tl
end

mutual
/-- No key at any depth of the value contains the character `/`. -/
def Value.keysHaveNoSlash : Value → Bool
  | .map m => Value.keysHaveNoSlash.entries m
  | _ => true
/-- No key of the entries, at any depth, contains the character `/`. -/
def Value.keysHaveNoSlash.entries : List (String × Value) → Bool
  | [] => true
  | (k, v) :: tl =>
    !(containsSlash k) && v.keysHaveNoSlash && Value.keysHaveNoSlash.entries tl
end

/-! ## Sample stores and repositories for the closed examples -/

/-- The node reached from `n` along the given segments. -/
def treeGet : Node → List String → Option Node
  | n, [] => some n
  | .leaf _, _ :: _ => none
  | .dir es, s :: rest =>
    match mapGet es s with
    | some child => treeGet child rest
    | none => none

/-- A store holding the tree `root` at version `version`; `Get` normalizes the
path it is given and walks the tree. -/
def treeStore (version : Int) (root : Node) : Store where
  Version := version
  Get := fun p => (version, treeGet root (pathSegments p))

/-- A backend whose writes all succeed. -/
def okClient : StoreClient where
  Put := fun _ _ _ => none
  Delete := fun _ _ => none
  PutMapping := fun _ _ _ => none
  DeleteMapping := fun _ _ => none

/-- The data tree `/hosts/h1/name = n1` (the `self` child serves the root
composition example). -/
def sampleData : Store :=
  treeStore 7 (.dir [("hosts", .dir [("h1", .dir [("name", .leaf "n1")])]),
    ("self", .leaf "shadowed")])

/-- Scenario S2: client `10.0.0.1` sees `/hosts/h1` as `host`. -/
def sampleRepo : MetadataRepo where
  onlySelf := false
  mapping := treeStore 1 (.dir [("10.0.0.1", .dir [("host", .leaf "/hosts/h1"),
    ("net", .dir [("peer", .leaf "/hosts/h2")])])])
  storeClient := okClient
  data := sampleData

/-- The same repository in only-self mode. -/
def sampleRepoOnlySelf : MetadataRepo := { sampleRepo with onlySelf := true }

/-- A repository whose mapping tree maps `10.0.0.1` directly to one data path. -/
def sampleRepoStringMapping : MetadataRepo where
  onlySelf := false
  mapping := treeStore 1 (.dir [("10.0.0.1", .leaf "/hosts/h1")])
  storeClient := okClient
  data := sampleData

/-- Go `strings.Split(s, ".")` on characters. -/
def splitDot : List Char → List (List Char)
  | [] => [[]]
  | c :: cs =>
    if c = '.' then [] :: splitDot cs
    else
      match splitDot cs with
      | [] => [[c]]
      | h :: t => (c :: h) :: t

/-- A decimal number of one to three digits, without leading zero, with value at
most 255. -/
def isOctet (s : List Char) : Bool :=
  s ≠ [] && s.length ≤ 3 && s.all Char.isDigit && (s.length = 1 || s.head? ≠ some '0') &&
    decide (s.foldl (fun n c => 10 * n + (c.toNat - 48)) 0 ≤ 255)

/-- A sample for `net.ParseIP(s) != nil` that recognizes the dotted-quad IPv4
literals only (no IPv6 literal); it serves the closed examples, and the theorems
hold for every recognizer. -/
def sampleParseIP (s : String) : Bool :=
  match splitDot s.data with
  | [a, b, c, d] => isOctet a && isOctet b && isOctet c && isOctet d
  | _ => false

/-! ## Watching: the coalescer, `Watch` and `WatchSelf` -/

/-- Modelled from the spec: an event of a `store.Watcher`, `(action, path, value)`. -/
structure Event where
  Action : String
  Path : String
  Value : String
  deriving Repr, DecidableEq

/-- One outcome of the `select` statement of `changeToResult`, as chosen by the
environment: an event delivered by the watcher, the watcher channel found closed,
the debounce timer firing, or the stop channel firing. -/
inductive Signal where
  | event (e : Event)
  | closed
  | timer
  | stop
  deriving Repr, DecidableEq

/-- What a watching call has done with a stream of signals: it is still waiting
(the stream is exhausted), or it has returned the value `val` (`none` is `nil`)
and left the signals `unconsumed`. -/
inductive WatchOutcome where
  | blocked
  | returned (val : Option Node) (unconsumed : List Signal)
  deriving DecidableEq

/-- The `for`/`select` loop of `changeToResult`. `m` is the accumulated map,
`armed` records `timer.C != nil`, and `Expand` is `flatmap.Expand`. While no
timer is armed the timer case receives from a nil channel and is never chosen,
so such a signal is passed over. -/
def changeToResult.loop (Expand : List (String × String) → String → Node) :
    List (String × String) → Bool → List Signal → Run WatchOutcome
  | _, _, [] => Run.pure .blocked
  | m, armed, .event e :: rest =>
    let value := e.Action ++ "|" ++ e.Value
    if e.Path = "/" then Run.pure (.returned (some (.leaf value)) rest)
    else do
      if armed then Run.perform .timerRelease () else Run.pure ()
      Run.perform .timerAcquire ()
      changeToResult.loop Expand (mapSet m e.Path value) true rest
  | m, armed, .closed :: rest => do
    if armed then Run.perform .timerRelease () else Run.pure ()
    pure (.returned (some (Expand m "/")) rest)
  | m, armed, .timer :: rest =>
    if armed then do
      Run.perform .timerRelease ()
      pure (.returned (some (Expand m "/")) rest)
    else changeToResult.loop Expand m armed rest
  | _, armed, .stop :: rest => do
    if armed then Run.perform .timerRelease () else Run.pure ()
    pure (.returned (some (Expand [] "/")) rest)

/-- Method `MetadataRepo.changeToResult` on the stream of signals that the
watcher, the timer and the stop channel deliver; the deferred `watcher.Remove()`
runs when the call returns. -/
def changeToResult (Expand : List (String × String) → String → Node)
    (signals : List Signal) : Run WatchOutcome := do
  let out ← changeToResult.loop Expand [] false signals
  match out with
  | .blocked => pure .blocked
  | .returned val rest => do
    Run.perform .watcherRemove ()
    pure (.returned val rest)

/-- The loop `for k, v := range flatMapping` of `WatchSelf`: one data watcher per
flattened mapping entry. -/
def WatchSelf.range : List (String × String) → Run Unit
  | [] => Run.pure ()
  | (_, v) :: tl => do
    Run.perform (.dataWatch v) ()
    WatchSelf.range tl

/-- Method `MetadataRepo.WatchSelf`. `Flatten` is `flatmap.Flatten`. The stop
channel handed to the coalescer is closed by the goroutine on the first mapping
event or when the context is done; both arrive as the signal `stop`. The
deferred `mappingWatcher.Remove()` runs when the call returns. -/
def WatchSelf (Expand : List (String × String) → String → Node)
    (Flatten : List (String × Node) → List (String × String))
    (r : MetadataRepo) (clientIP nodePath : String) (signals : List Signal) :
    Run WatchOutcome := do
  let nodePath := pathJoin [clientIP, "/", nodePath]
  let mappingData ← GetMapping r nodePath
  match mappingData with
  | none => pure (.returned none signals)
  | some mappingData => do
    Run.perform (.mappingWatch nodePath) ()
    let out ←
      match mappingData with
      | .leaf dataNodePath => do
        Run.perform (.dataWatch dataNodePath) ()
        changeToResult Expand signals
      | .dir mapping => do
        WatchSelf.range (Flatten mapping)
        changeToResult Expand signals
    match out with
    | .blocked => pure .blocked
    | .returned val rest => do
      Run.perform .mappingWatcherRemove ()
      pure (.returned val rest)

/-- Method `MetadataRepo.Watch`. -/
def Watch (Expand : List (String × String) → String → Node)
    (Flatten : List (String × Node) → List (String × String))
    (r : MetadataRepo) (clientIP nodePath : String) (signals : List Signal) :
    Run WatchOutcome :=
  let nodePath := pathJoin ["/", nodePath]
  if r.onlySelf then
    if nodePath = "/" then WatchSelf Expand Flatten r clientIP "/" signals
    else Run.pure (.returned none signals)
  else do
    Run.perform (.dataWatch nodePath) ()
    changeToResult Expand signals

/-! ## Deleting -/

/-- Go `unicode.IsSpace`. -/
def isSpace (c : Char) : Bool :=
  let n := c.toNat
  (9 ≤ n && n ≤ 13) || n = 32 || n = 133 || n = 160 || n = 5760 ||
    (8192 ≤ n && n ≤ 8202) || n = 8232 || n = 8233 || n = 8239 || n = 8287 || n = 12288

/-- Go `strings.TrimSpace(s)`. -/
def stringsTrimSpace (s : String) : String :=
  ⟨((s.data.dropWhile isSpace).reverse.dropWhile isSpace).reverse⟩

/-- Function `checkSubs`. -/
def checkSubs : List String → Option String
  | [] => none
  | sub :: tl => if containsSlash sub then some "Sub node must not a path." else checkSubs tl

/-- The result of the type assertion `_, dir := v.(map[string]interface{})`. -/
def Node.isDir : Node → Bool
  | .dir _ => true
  | .leaf _ => false

/-- The loop `for _, sub := range subs` of `DeleteData`. -/
def DeleteData.range (r : MetadataRepo) (nodePath : String) : List String → Run (Option String)
  | [] => Run.pure none
  | sub :: tl => do
    let subPath := pathJoin [nodePath, sub]
    let v ← Run.perform (.dataGet subPath) (r.data.Get subPath).2
    match v with
    | some v => do
      let err ← Run.perform (.backendDelete subPath v.isDir) (r.storeClient.Delete subPath v.isDir)
      match err with
      | some err => pure (some err)
      | none => DeleteData.range r nodePath tl
    | none => DeleteData.range r nodePath tl

/-- Method `MetadataRepo.DeleteData`; the result is the returned `error`. -/
def DeleteData (r : MetadataRepo) (nodePath : String) (subs : List String) :
    Run (Option String) :=
  match checkSubs subs with
  | some err => Run.pure (some err)
  | none =>
    if subs.length > 0 then DeleteData.range r nodePath subs
    else do
      let v ← Run.perform (.dataGet nodePath) (r.data.Get nodePath).2
      match v with
      | some v => Run.perform (.backendDelete nodePath v.isDir) (r.storeClient.Delete nodePath v.isDir)
      | none => pure none

/-- The loop `for _, sub := range subs` of `DeleteMapping`. -/
def DeleteMapping.range (r : MetadataRepo) (nodePath : String) :
    List String → Run (Option String)
  | [] => Run.pure none
  | sub :: tl =>
    let sub := stringsTrimSpace sub
    if sub = "" then DeleteMapping.range r nodePath tl
    else do
      let subPath := pathJoin [nodePath, sub]
      let v ← Run.perform (.mappingGet subPath) (r.mapping.Get subPath).2
      match v with
      | some v => do
        let err ← Run.perform (.backendDeleteMapping subPath v.isDir)
          (r.storeClient.DeleteMapping subPath v.isDir)
        match err with
        | some err => pure (some err)
        | none => DeleteMapping.range r nodePath tl
      | none => DeleteMapping.range r nodePath tl

/-- Method `MetadataRepo.DeleteMapping`; the result is the returned `error`. -/
def DeleteMapping (r : MetadataRepo) (nodePath : String) (subs : List String) :
    Run (Option String) :=
  match checkSubs subs with
  | some err => Run.pure (some err)
  | none =>
    if subs.length > 0 then DeleteMapping.range r nodePath subs
    else do
      let v ← Run.perform (.mappingGet nodePath) (r.mapping.Get nodePath).2
      match v with
      | some v =>
        Run.perform (.backendDeleteMapping nodePath v.isDir)
          (r.storeClient.DeleteMapping nodePath v.isDir)
      | none => pure none

/-! ## Notions used by the specification of watching and deleting -/

/-- The text `<action>|<value>` of an event. -/
def Event.text (e : Event) : String := e.Action ++ "|" ++ e.Value

/-- The text of the last event of the sequence that carries the path `p`, if
there is one. -/
def lastText (events : List Event) (p : String) : Option String :=
  ((events.filter (fun e => e.Path = p)).getLast?).map Event.text

/-- The map that last-writer-wins prescribes for a sequence of events: one entry
`(path, <action>|<value>)` for each event that no later event of the sequence
overwrites, that is, for the last event of each path. -/
def lastWriters : List Event → List (String × String)
  | [] => []
  | e :: tl =>
    if tl.any (fun x => x.Path = e.Path) then lastWriters tl
    else (e.Path, e.text) :: lastWriters tl

/-- The target paths that `DeleteData` considers: `nodePath` itself when `subs`
is empty, otherwise `join(nodePath, sub)` for each `sub`. -/
def deleteDataTargets (nodePath : String) (subs : List String) : List String :=
  if subs = [] then [nodePath] else subs.map (fun sub => pathJoin [nodePath, sub])

/-- The target paths that `DeleteMapping` considers: `nodePath` itself when
`subs` is empty, otherwise `join(nodePath, TrimSpace(sub))` for each `sub` whose
trimmed form is not empty. -/
def deleteMappingTargets (nodePath : String) (subs : List String) : List String :=
  if subs = [] then [nodePath]
  else ((subs.map stringsTrimSpace).filter (fun sub => sub ≠ "")).map
    (fun sub => pathJoin [nodePath, sub])

/-- The path `target` is a direct child of `nodePath`: its segments are those of
`nodePath` followed by one more. -/
def IsDirectChild (nodePath target : String) : Prop :=
  ∃ s, pathSegments target = pathSegments nodePath ++ [s]

/-! ## Samples for the closed examples of watching and deleting -/

/-- Binding the leaf `v` at the end of the segments in a nested map. -/
def insertPath : List (String × Node) → List String → String → List (String × Node)
  | m, [], _ => m
  | m, [s], v => mapSet m s (.leaf v)
  | m, s :: t :: rest, v =>
    let sub := match mapGet m s with
      | some (.dir d) => d
      | _ => []
    mapSet m s (.dir (insertPath sub (t :: rest) v))

/-- A sample for `flatmap.Expand`: the flat paths become nested directories. -/
def sampleExpand (m : List (String × String)) (_root : String) : Node :=
  .dir (m.foldl (fun acc kv => insertPath acc (pathSegments kv.1) kv.2) [])

mutual
/-- A sample for `flatmap.Flatten` below the path `base`. -/
def sampleFlattenAt (base : String) : List (String × Node) → List (String × String)
  | [] => []
  | (k, v) :: tl => sampleFlattenAt.entry (base ++ "/" ++ k) v ++ sampleFlattenAt base tl
/-- The flat entries of one value at the given path. -/
def sampleFlattenAt.entry (path : String) : Node → List (String × String)
  | .leaf s => [(path, s)]
  | .dir sub => sampleFlattenAt path sub
end

/-- A sample for `flatmap.Flatten`. -/
def sampleFlatten (m : List (String × Node)) : List (String × String) := sampleFlattenAt "" m

/-- A backend whose data delete fails on the path `/hosts/h1` and whose other
writes succeed. -/
def failingClient : StoreClient where
  Put := fun _ _ _ => none
  Delete := fun p _ => if p = "/hosts/h1" then some "backend unavailable" else none
  PutMapping := fun _ _ _ => none
  DeleteMapping := fun _ _ => none

/-- The sample repository with two hosts in the data tree. -/
def sampleRepoTwoHosts : MetadataRepo where
  onlySelf := false
  mapping := sampleRepo.mapping
  storeClient := okClient
  data := treeStore 9 (.dir [("hosts", .dir [("h1", .dir [("name", .leaf "n1")]),
    ("h2", .leaf "n2")])])

/-- The same repository on the backend whose delete of `/hosts/h1` fails. -/
def sampleRepoFailing : MetadataRepo := { sampleRepoTwoHosts with storeClient := failingClient }

/-! ## The path model on the test vectors of the Go standard library -/

/-- The model of `path.Clean` agrees with the table of `path_test.go`. -/
theorem pathClean_vectors :
    pathClean "" = "." ∧ pathClean "abc" = "abc" ∧ pathClean "abc/def" = "abc/def" ∧
    pathClean "." = "." ∧ pathClean ".." = ".." ∧ pathClean "../.." = "../.." ∧
    pathClean "../../abc" = "../../abc" ∧ pathClean "/abc" = "/abc" ∧ pathClean "/" = "/" ∧
    pathClean "abc/" = "abc" ∧ pathClean "abc/def/" = "abc/def" ∧ pathClean "./" = "." ∧
    pathClean "../" = ".." ∧ pathClean "../../" = "../.." ∧ pathClean "/abc/" = "/abc" ∧
    pathClean "abc//def//ghi" = "abc/def/ghi" ∧ pathClean "//abc" = "/abc" ∧
    pathClean "///abc" = "/abc" ∧ pathClean "//abc//" = "/abc" ∧ pathClean "abc//" = "abc" ∧
    pathClean "abc/./def" = "abc/def" ∧ pathClean "/./abc/def" = "/abc/def" ∧
    pathClean "abc/." = "abc" ∧ pathClean "abc/def/ghi/../jkl" = "abc/def/jkl" ∧
    pathClean "abc/def/../ghi/../jkl" = "abc/jkl" ∧ pathClean "abc/def/.." = "abc" ∧
    pathClean "abc/def/../.." = "." ∧ pathClean "/abc/def/../.." = "/" ∧
    pathClean "abc/def/../../.." = ".." ∧ pathClean "/abc/def/../../.." = "/" ∧
    pathClean "abc/def/../../../ghi/jkl/../../../mno" = "../../mno" ∧
    pathClean "abc/./../def" = "def" ∧ pathClean "abc//./../def" = "def" ∧
    pathClean "abc/../../././../def" = "../../def" := by
  decide

/-- The model of `path.Join` agrees with the table of `path_test.go`. -/
theorem pathJoin_vectors :
    pathJoin [] = "" ∧ pathJoin [""] = "" ∧ pathJoin ["a"] = "a" ∧
    pathJoin ["a", "b"] = "a/b" ∧ pathJoin ["a", ""] = "a" ∧ pathJoin ["", "b"] = "b" ∧
    pathJoin ["/", "a"] = "/a" ∧ pathJoin ["/", ""] = "/" ∧ pathJoin ["a/", "b"] = "a/b" ∧
    pathJoin ["a/", ""] = "a" ∧ pathJoin ["", ""] = "" ∧
    stringsSplit "/a/b" = ["", "a", "b"] ∧ stringsSplit "/" = ["", ""] ∧
    stringsSplit "" = [""] := by
  decide

/-! ## The path helpers: splitting, joining, cleaning -/

theorem splitSlash_ne_nil (l : List Char) : splitSlash l ≠ [] := by
  induction l with
  | nil => simp [splitSlash]
  | cons c cs ih =>
    unfold splitSlash
    split
    · simp
    · split <;> simp

theorem splitSlash_cons_slash (l : List Char) : splitSlash ('/' :: l) = [] :: splitSlash l := by
  simp [splitSlash]

theorem splitSlash_append_slash (l m : List Char) :
    splitSlash (l ++ '/' :: m) = splitSlash l ++ splitSlash m := by
  induction l with
  | nil => simp [splitSlash]
  | cons c cs ih =>
    by_cases hc : c = '/'
    · subst hc
      simp [splitSlash, ih]
    · have h1 : splitSlash (c :: (cs ++ '/' :: m)) =
          match splitSlash (cs ++ '/' :: m) with
          | [] => [[c]]
          | h :: t => (c :: h) :: t := by
        simp [splitSlash, hc]
      have h2 : splitSlash (c :: cs) =
          match splitSlash cs with
          | [] => [[c]]
          | h :: t => (c :: h) :: t := by
        simp [splitSlash, hc]
      rw [List.cons_append, h1, h2, ih]
      cases hs : splitSlash cs with
      | nil => exact absurd hs (splitSlash_ne_nil cs)
      | cons h t => simp

theorem splitSlash_noSlash (l : List Char) (h : '/' ∉ l) : splitSlash l = [l] := by
  induction l with
  | nil => simp [splitSlash]
  | cons c cs ih =>
    have hc : c ≠ '/' := fun e => h (by simp [e])
    have hcs : '/' ∉ cs := fun e => h (by simp [e])
    simp [splitSlash, hc, ih hcs]

theorem mem_splitSlash_noSlash (l : List Char) : ∀ s ∈ splitSlash l, '/' ∉ s := by
  induction l with
  | nil => simp [splitSlash]
  | cons c cs ih =>
    by_cases hc : c = '/'
    · subst hc
      intro s hs
      simp [splitSlash] at hs
      rcases hs with rfl | hs
      · simp
      · exact ih s hs
    · intro s hs
      cases hsp : splitSlash cs with
      | nil => exact absurd hsp (splitSlash_ne_nil cs)
      | cons h t =>
        simp [splitSlash, hc, hsp] at hs
        rw [hsp] at ih
        rcases hs with rfl | hs
        · have := ih h (by simp)
          simp [this, Ne.symm hc]
        · exact ih s (by simp [hs])

theorem splitSlash_joinSlash (S : List (List Char)) (hS : S ≠ [])
    (h : ∀ s ∈ S, '/' ∉ s) : splitSlash (joinSlash S) = S := by
  induction S with
  | nil => exact absurd rfl hS
  | cons x rest ih =>
    cases rest with
    | nil => simpa [joinSlash] using splitSlash_noSlash x (h x (by simp))
    | cons y rest2 =>
      rw [joinSlash, splitSlash_append_slash, splitSlash_noSlash x (h x (by simp)),
        ih (by simp) (fun s hs => h s (by simp [hs]))]
      rfl


theorem cleanStep_normal (b : Bool) (st : List (List Char)) (s : List Char)
    (hs : NormalSeg s) : cleanStep b st s = s :: st := by
  obtain ⟨h1, h2, h3, _⟩ := hs
  simp [cleanStep, h1, h2, h3]

theorem foldl_cleanStep_normal (b : Bool) (S : List (List Char)) :
    ∀ st, (∀ s ∈ S, NormalSeg s) → S.foldl (cleanStep b) st = S.reverse ++ st := by
  induction S with
  | nil => simp
  | cons x rest ih =>
    intro st h
    rw [List.foldl_cons, cleanStep_normal b st x (h x (by simp)),
      ih _ (fun s hs => h s (by simp [hs]))]
    simp

theorem cleanStep_true_normal (st : List (List Char)) (s : List Char)
    (hst : ∀ t ∈ st, NormalSeg t) (hs : '/' ∉ s) :
    ∀ t ∈ cleanStep true st s, NormalSeg t := by
  unfold cleanStep
  split
  · exact hst
  · rename_i h1
    split
    · cases st with
      | nil => simp
      | cons top below =>
        simp only [if_true]
        split
        · exact hst
        · exact fun t ht => hst t (by simp [ht])
    · rename_i h2
      intro t ht
      simp only [List.mem_cons] at ht
      rcases ht with rfl | ht
      · simp only [not_or] at h1
        exact ⟨h1.1, h1.2, h2, hs⟩
      · exact hst t ht

theorem foldl_cleanStep_true_normal (X : List (List Char)) :
    ∀ st, (∀ t ∈ st, NormalSeg t) → (∀ s ∈ X, '/' ∉ s) →
      ∀ t ∈ X.foldl (cleanStep true) st, NormalSeg t := by
  induction X with
  | nil => intro st hst _; simpa using hst
  | cons x rest ih =>
    intro st hst hX
    rw [List.foldl_cons]
    exact ih _ (cleanStep_true_normal st x hst (hX x (by simp)))
      (fun s hs => hX s (by simp [hs]))

theorem normSegs_normal (p : List Char) : ∀ s ∈ normSegs p, NormalSeg s := by
  intro s hs
  unfold normSegs at hs
  rw [List.mem_reverse] at hs
  exact foldl_cleanStep_true_normal _ [] (by simp) (mem_splitSlash_noSlash p) s hs

theorem pathJoin_root (p : String) :
    pathJoin ["/", p] = ⟨'/' :: joinSlash (normSegs p.data)⟩ := by
  have h : ("/" : String) ≠ "" := by decide
  simp only [pathJoin, List.dropWhile, h, decide_False, pathClean, List.map, joinSlash]
  show String.mk (cleanChars (['/'] ++ '/' :: p.data)) = _
  simp [cleanChars, splitSlash, normSegs, cleanStep]


theorem normSegs_nil : normSegs [] = [] := by
  simp [normSegs, splitSlash, cleanStep]

theorem normSegs_joinSlash (S : List (List Char)) (h : ∀ s ∈ S, NormalSeg s) :
    normSegs (joinSlash S) = S := by
  by_cases hS : S = []
  · subst hS
    simp [joinSlash, normSegs_nil]
  · unfold normSegs
    rw [splitSlash_joinSlash S hS (fun s hs => (h s hs).2.2.2), foldl_cleanStep_normal true S [] h]
    simp

theorem normSegs_cons_slash (l : List Char) : normSegs ('/' :: l) = normSegs l := by
  simp [normSegs, splitSlash, cleanStep]

theorem stringsSplit_pathJoin_root (p : String) :
    (stringsSplit (pathJoin ["/", p])).drop 1 =
      if normSegs p.data = [] then [""] else (normSegs p.data).map String.mk := by
  rw [pathJoin_root]
  simp only [stringsSplit, splitSlash_cons_slash, List.map_cons, List.drop_succ_cons, List.drop_zero]
  split
  · rename_i h
    rw [h]
    simp [joinSlash, splitSlash]
  · rename_i h
    rw [splitSlash_joinSlash _ h (fun s hs => (normSegs_normal p.data s hs).2.2.2)]

theorem joinSlash_head (x : List Char) (rest : List (List Char)) (c : Char) (cs : List Char)
    (hx : x = c :: cs) : ∃ tl, joinSlash (x :: rest) = c :: tl := by
  subst hx
  cases rest with
  | nil => exact ⟨cs, rfl⟩
  | cons y r => exact ⟨cs ++ '/' :: joinSlash (y :: r), rfl⟩

theorem cleanChars_joinSlash (S : List (List Char)) (hS : S ≠ []) (h : ∀ s ∈ S, NormalSeg s) :
    cleanChars (joinSlash S) = joinSlash S := by
  cases S with
  | nil => exact absurd rfl hS
  | cons x rest =>
    have hx := h x (by simp)
    cases hxe : x with
    | nil => exact absurd hxe hx.1
    | cons c cs =>
      obtain ⟨tl, htl⟩ := joinSlash_head x rest c cs hxe
      have hc : c ≠ '/' := by
        intro e
        apply hx.2.2.2
        rw [hxe, e]
        simp
      have hsplit := splitSlash_joinSlash (x :: rest) hS (fun s hs => (h s hs).2.2.2)
      have hfold := foldl_cleanStep_normal (decide (c = '/')) (x :: rest) [] h
      rw [← hxe]
      rw [htl] at hsplit ⊢
      simp only [cleanChars]
      rw [hsplit, hfold]
      simp [hc]
      exact htl

theorem pathJoin_normal (S : List (List Char)) (h : ∀ s ∈ S, NormalSeg s) :
    pathJoin (S.map String.mk) = ⟨joinSlash S⟩ := by
  cases S with
  | nil => rfl
  | cons x rest =>
    have hx : String.mk x ≠ "" := by
      intro e
      exact (h x (by simp)).1 (congrArg String.data e)
    have hmap : List.map String.data (List.map String.mk (x :: rest)) = x :: rest := by
      simp [List.map_map, Function.comp_def]
    simp only [pathJoin, List.map_cons, List.dropWhile, hx, decide_False]
    have := hmap
    simp only [List.map_cons] at this
    rw [this]
    simp only [pathClean]
    rw [cleanChars_joinSlash (x :: rest) (by simp) h]

theorem normSegs_pathJoin_normal (S : List (List Char)) (h : ∀ s ∈ S, NormalSeg s) :
    normSegs (pathJoin (S.map String.mk)).data = S := by
  rw [pathJoin_normal S h]
  exact normSegs_joinSlash S h


theorem normSegs_root_joinSlash (S : List (List Char)) (h : ∀ s ∈ S, NormalSeg s) :
    normSegs ('/' :: joinSlash S) = S := by
  rw [normSegs_cons_slash, normSegs_joinSlash S h]

theorem pathJoin_root_idem (p : String) :
    pathJoin ["/", pathJoin ["/", p]] = pathJoin ["/", p] := by
  rw [pathJoin_root (pathJoin ["/", p]), pathJoin_root p]
  simp only
  rw [normSegs_root_joinSlash _ (normSegs_normal p.data)]

theorem cleanStep_sim (stT : List (List Char)) (k : Nat) (s : List Char)
    (hT : ∀ t ∈ stT, NormalSeg t) :
    ∃ k2, cleanStep false (stT ++ List.replicate k ['.', '.']) s =
      cleanStep true stT s ++ List.replicate k2 ['.', '.'] := by
  unfold cleanStep
  split
  · exact ⟨k, rfl⟩
  · split
    · rename_i hdd
      cases stT with
      | nil =>
        cases k with
        | zero => exact ⟨1, by simp [hdd, List.replicate]⟩
        | succ k0 => exact ⟨k0 + 2, by simp [hdd, List.replicate]⟩
      | cons top below =>
        have htop : top ≠ ['.', '.'] := (hT top (by simp)).2.2.1
        exact ⟨k, by simp [htop]⟩
    · exact ⟨k, by simp⟩

theorem foldl_cleanStep_sim (X : List (List Char)) :
    ∀ (stT : List (List Char)) (k : Nat), (∀ t ∈ stT, NormalSeg t) → (∀ s ∈ X, '/' ∉ s) →
      ∃ k2, X.foldl (cleanStep false) (stT ++ List.replicate k ['.', '.']) =
        X.foldl (cleanStep true) stT ++ List.replicate k2 ['.', '.'] := by
  induction X with
  | nil => intro stT k _ _; exact ⟨k, rfl⟩
  | cons x rest ih =>
    intro stT k hT hX
    obtain ⟨k1, hk1⟩ := cleanStep_sim stT k x hT
    rw [List.foldl_cons, List.foldl_cons, hk1]
    exact ih _ k1 (cleanStep_true_normal stT x hT (hX x (by simp)))
      (fun s hs => hX s (by simp [hs]))

theorem foldl_cleanStep_true_dotdots (k : Nat) :
    (List.replicate k ['.', '.']).foldl (cleanStep true) [] = [] := by
  induction k with
  | zero => rfl
  | succ n ih =>
    rw [List.replicate_succ, List.foldl_cons]
    simpa [cleanStep] using ih

theorem normSegs_cleanChars (l : List Char) (hl : l ≠ []) :
    normSegs (cleanChars l) = normSegs l := by
  cases l with
  | nil => exact absurd rfl hl
  | cons c cs =>
    by_cases hc : c = '/'
    · subst hc
      have : cleanChars ('/' :: cs) = '/' :: joinSlash (normSegs ('/' :: cs)) := by
        simp [cleanChars, normSegs]
      rw [this, normSegs_root_joinSlash _ (normSegs_normal _)]
    · obtain ⟨k, hk⟩ := foldl_cleanStep_sim (splitSlash (c :: cs)) [] 0 (by simp)
        (mem_splitSlash_noSlash _)
      simp only [List.replicate_zero, List.append_nil] at hk
      have hA := foldl_cleanStep_true_normal (splitSlash (c :: cs)) [] (by simp)
        (mem_splitSlash_noSlash _)
      generalize hAdef : (splitSlash (c :: cs)).foldl (cleanStep true) [] = A at hk hA
      have hn : normSegs (c :: cs) = A.reverse := by rw [normSegs, hAdef]
      have hclean : cleanChars (c :: cs) =
          if (A ++ List.replicate k ['.', '.']).reverse = [] then ['.']
          else joinSlash (A ++ List.replicate k ['.', '.']).reverse := by
        simp [cleanChars, hc, hk]
      rw [hclean, hn]
      split
      · rename_i hU
        simp only [List.reverse_eq_nil_iff, List.append_eq_nil] at hU
        rw [hU.1]
        simp [normSegs, splitSlash, cleanStep]
      · rename_i hU
        have hslash : ∀ s ∈ (A ++ List.replicate k ['.', '.']).reverse, '/' ∉ s := by
          intro s hs
          simp only [List.mem_reverse, List.mem_append, List.mem_replicate] at hs
          rcases hs with hs | ⟨_, rfl⟩
          · exact (hA s hs).2.2.2
          · decide
        rw [normSegs, splitSlash_joinSlash _ hU hslash, List.reverse_append, List.foldl_append,
          List.reverse_replicate, foldl_cleanStep_true_dotdots,
          foldl_cleanStep_normal true A.reverse [] (by simpa using hA)]
        simp

theorem cleanChars_append_slashes (l : List Char) (hl : l ≠ []) :
    cleanChars (l ++ ['/', '/']) = cleanChars l := by
  cases l with
  | nil => exact absurd rfl hl
  | cons c cs =>
    have h : splitSlash (c :: cs ++ ['/', '/']) = splitSlash (c :: cs) ++ [[], []] := by
      rw [splitSlash_append_slash]
      simp [splitSlash]
    simp only [cleanChars, List.cons_append]
    rw [← List.cons_append, h, List.foldl_append]
    simp [cleanStep]

theorem pathJoin_link_root (link : String) :
    pathJoin ["/", pathJoin [link, "/"]] = pathJoin ["/", link] := by
  by_cases hl : link = ""
  · subst hl
    decide
  · have hd : link.data ≠ [] := fun e => hl (String.ext e)
    have h1 : pathJoin [link, "/"] = ⟨cleanChars link.data⟩ := by
      simp only [pathJoin, List.dropWhile, hl, decide_False, pathClean, List.map, joinSlash]
      show String.mk (cleanChars (link.data ++ '/' :: ['/'])) = _
      rw [cleanChars_append_slashes _ hd]
    rw [pathJoin_root, pathJoin_root, h1]
    simp only
    rw [normSegs_cleanChars _ hd]

/-! ## Runs -/

theorem Run.bind_eq {α β : Type} (x : Run α) (f : α → Run β) : (x >>= f) = Run.bind x f := rfl

theorem Run.pure_eq {α : Type} (a : α) : (pure a : Run α) = Run.pure a := rfl

theorem Run.bind_ok {α β : Type} (x : Run α) (f : α → Run β) (a : α) (h : x.res = .ok a) :
    Run.bind x f = ⟨x.ops ++ (f a).ops, (f a).res⟩ := by
  simp [Run.bind, h]

theorem Run.bind_perform {α β : Type} (o : Op) (a : α) (f : α → Run β) :
    Run.bind (Run.perform o a) f = ⟨o :: (f a).ops, (f a).res⟩ := by
  simp [Run.bind, Run.perform]

/-! ## Segments of a normalized path -/

theorem map_mk_ne_empty (S : List (List Char)) (h : ∀ s ∈ S, NormalSeg s) :
    (S.map String.mk).filter (fun s => decide (s ≠ "")) = S.map String.mk := by
  rw [List.filter_eq_self]
  intro s hs
  simp only [List.mem_map] at hs
  obtain ⟨c, hc, rfl⟩ := hs
  have : String.mk c ≠ "" := fun e => (h c hc).1 (congrArg String.data e)
  simpa using this

theorem pathSegments_eq (p : String) : pathSegments p = (normSegs p.data).map String.mk := by
  unfold pathSegments
  rw [stringsSplit_pathJoin_root]
  split
  · rename_i h
    rw [h]
    decide
  · exact map_mk_ne_empty _ (normSegs_normal p.data)

theorem normSegs_of_pathSegments (p : String) (L : List String) (h : pathSegments p = L) :
    normSegs p.data = L.map String.data := by
  rw [← h, pathSegments_eq]
  simp [List.map_map, Function.comp_def]

theorem map_data_normal (p : String) (L : List String) (h : normSegs p.data = L.map String.data) :
    ∀ s ∈ L.map String.data, NormalSeg s := by
  rw [← h]
  exact normSegs_normal p.data

theorem pathJoin_segments (L : List String) (h : ∀ s ∈ L.map String.data, NormalSeg s) :
    pathJoin L = stringsJoin L := by
  have := pathJoin_normal (L.map String.data) h
  simpa [List.map_map, Function.comp_def, stringsJoin] using this

theorem normSegs_pathJoin_segments (L : List String)
    (h : ∀ s ∈ L.map String.data, NormalSeg s) :
    normSegs (pathJoin L).data = L.map String.data := by
  have := normSegs_pathJoin_normal (L.map String.data) h
  simpa [List.map_map, Function.comp_def] using this

theorem pathJoin_root_eq_root_iff (p : String) :
    pathJoin ["/", p] = "/" ↔ normSegs p.data = [] := by
  rw [pathJoin_root]
  constructor
  · intro h
    have hd : '/' :: joinSlash (normSegs p.data) = ['/'] := congrArg String.data h
    have hj : joinSlash (normSegs p.data) = [] := by simpa using hd
    cases hS : normSegs p.data with
    | nil => rfl
    | cons x rest =>
      exfalso
      have hx := normSegs_normal p.data x (by simp [hS])
      rw [hS] at hj
      cases rest with
      | nil => exact hx.1 (by simpa [joinSlash] using hj)
      | cons y r => simp [joinSlash] at hj
  · intro h
    rw [h]
    rfl

/-! ## Unfolding `getMappingDatas` -/

theorem getMappingDatas_dir (r : MetadataRepo) (p : String) (M : List (String × Node)) :
    getMappingDatas r p (.dir M) =
      match normSegs p.data with
      | [] => Run.bind (getMappingDatas.range r M []) (fun res => Run.pure (some (.dir res)))
      | s :: rest => getMappingDatas.index r ⟨s⟩ (rest.map String.mk) M := by
  rw [getMappingDatas]
  simp only [stringsSplit_pathJoin_root]
  cases hS : normSegs p.data with
  | nil =>
    simp [Run.bind_eq]
    rfl
  | cons s rest =>
    have hs : String.mk s ≠ "" := fun e =>
      (normSegs_normal p.data s (by simp [hS])).1 (congrArg String.data e)
    simp [hs]

theorem getMappingDatas_index_eq (r : MetadataRepo) (e : String) (rest : List String)
    (M : List (String × Node)) :
    getMappingDatas.index r e rest M =
      match mapGet M e with
      | none => Run.pure none
      | some (.dir sub) => getMappingDatas r (pathJoin rest) (.dir sub)
      | some (.leaf link) => getMappingData r (pathJoin rest) link := by
  induction M with
  | nil => simp [getMappingDatas.index, mapGet]
  | cons kv tl ih =>
    obtain ⟨k, v⟩ := kv
    by_cases hk : k = e
    · cases v <;> simp [getMappingDatas.index, mapGet, hk]
    · simp [getMappingDatas.index, mapGet, hk, ih]

/-- Walking the mapping along the segments of the path: after the nested
submappings `pre`, the run continues as the lookup of the next segment in the
submapping reached. -/
theorem getMappingDatas_descend (r : MetadataRepo) (pre : List String) :
    ∀ (p : String) (M M2 : List (String × Node)) (s : String) (rest : List String),
      normSegs p.data = (pre ++ s :: rest).map String.data →
      descend M pre = some M2 →
      getMappingDatas r p (.dir M) =
        match mapGet M2 s with
        | none => Run.pure none
        | some (.dir sub) => getMappingDatas r (pathJoin rest) (.dir sub)
        | some (.leaf link) => getMappingData r (pathJoin rest) link := by
  induction pre with
  | nil =>
    intro p M M2 s rest hseg hdesc
    simp only [descend, Option.some.injEq] at hdesc
    subst hdesc
    rw [getMappingDatas_dir]
    simp only [List.nil_append, List.map_cons] at hseg
    rw [hseg]
    simp only
    rw [getMappingDatas_index_eq]
    simp [List.map_map, Function.comp_def]
  | cons a pre2 ih =>
    intro p M M2 s rest hseg hdesc
    have hnormal := map_data_normal p _ hseg
    rw [getMappingDatas_dir]
    simp only [List.cons_append, List.map_cons] at hseg
    rw [hseg]
    simp only
    rw [getMappingDatas_index_eq]
    simp only [descend] at hdesc
    cases hget : mapGet M a with
    | none => simp [hget] at hdesc
    | some v =>
      cases v with
      | leaf l => simp [hget] at hdesc
      | dir sub =>
        simp only [hget] at hdesc
        have ha : String.mk a.data = a := rfl
        simp only [ha, hget]
        have hmap : List.map String.mk (List.map String.data (pre2 ++ s :: rest)) =
            pre2 ++ s :: rest := by
          simp [List.map_map, Function.comp_def]
        rw [hmap]
        apply ih _ sub M2 s rest _ hdesc
        apply normSegs_pathJoin_segments
        intro t ht
        exact hnormal t (by
          simp only [List.cons_append, List.map_cons, List.mem_cons]
          exact Or.inr ht)

/-! ## The root case of `getMappingDatas` -/

theorem mapSet_fresh {α : Type} (acc : List (String × α)) (k : String) (v : α)
    (h : ∀ a ∈ acc, a.1 ≠ k) : mapSet acc k v = acc ++ [(k, v)] := by
  unfold mapSet
  congr 1
  rw [List.filter_eq_self]
  intro a ha
  simpa using h a ha

theorem store_get_link (data : Store)
    (hnorm : data.Normalizes) (link : String) :
    data.Get (pathJoin [link, "/"]) = data.Get link := by
  rw [hnorm (pathJoin [link, "/"]), pathJoin_link_root, ← hnorm link]

theorem normSegs_root : normSegs ("/" : String).data = [] := by decide

theorem range_step_fresh (acc tl : List (String × Node)) (k : String) (v : Node)
    (hk : (tl.any fun e => decide (e.1 = k)) = false)
    (hacc : ∀ e ∈ tl, ∀ a ∈ acc, a.1 ≠ e.1) :
    ∀ e ∈ tl, ∀ a ∈ acc ++ [(k, v)], a.1 ≠ e.1 := by
  intro e he a ha
  simp only [List.mem_append, List.mem_singleton] at ha
  rcases ha with ha | rfl
  · exact hacc e he a ha
  · intro hke
    have := List.any_eq_false.mp hk e he
    simp only [decide_eq_true_eq] at this
    exact this hke.symm

mutual
theorem getMappingDatas_root_res (r : MetadataRepo)
    (hnorm : r.data.Normalizes) :
    (v : Node) → v.uniqueKeys = true →
      (getMappingDatas r "/" v).res =
        .ok (match v with
          | .dir sub => some (.dir (projection r.data sub))
          | .leaf _ => none)
  | .leaf _, _ => by simp [getMappingDatas, Run.pure]
  | .dir sub, hu => by
    rw [getMappingDatas_dir, normSegs_root]
    simp only
    have hsub : Node.uniqueKeys.entries sub = true := by simpa [Node.uniqueKeys] using hu
    have h := getMappingDatas_range_res r hnorm sub [] hsub (by simp)
    rw [Run.bind_ok _ _ _ h]
    simp [Run.pure]
theorem getMappingDatas_range_res (r : MetadataRepo)
    (hnorm : r.data.Normalizes) :
    (es acc : List (String × Node)) → Node.uniqueKeys.entries es = true →
      (∀ e ∈ es, ∀ a ∈ acc, a.1 ≠ e.1) →
      (getMappingDatas.range r es acc).res = .ok (acc ++ projection r.data es)
  | [], acc, _, _ => by simp [getMappingDatas.range, projection, Run.pure]
  | (k, .dir sub) :: tl, acc, hu, hacc => by
    simp only [Node.uniqueKeys.entries, Bool.and_eq_true, Bool.not_eq_true'] at hu
    obtain ⟨⟨hk, hv⟩, htl⟩ := hu
    have hroot := getMappingDatas_root_res r hnorm (.dir sub) hv
    simp only at hroot
    have hfresh : ∀ a ∈ acc, a.1 ≠ k := fun a ha => hacc (k, .dir sub) (by simp) a ha
    rw [getMappingDatas.range, Run.bind_eq, Run.bind_ok _ _ _ hroot]
    simp only
    rw [mapSet_fresh acc k _ hfresh,
      getMappingDatas_range_res r hnorm tl _ htl
        (range_step_fresh acc tl k _ hk (fun e he => hacc e (by simp [he])))]
    simp [projection, projection.entry]
  | (k, .leaf link) :: tl, acc, hu, hacc => by
    simp only [Node.uniqueKeys.entries, Bool.and_eq_true, Bool.not_eq_true'] at hu
    obtain ⟨⟨hk, _⟩, htl⟩ := hu
    have hfresh : ∀ a ∈ acc, a.1 ≠ k := fun a ha => hacc (k, .leaf link) (by simp) a ha
    rw [getMappingDatas.range, Run.bind_eq, getMappingData, Run.bind_perform,
      store_get_link r.data hnorm link]
    simp only [projection, projection.entry]
    cases hget : (r.data.Get link).2 with
    | none =>
      simp only
      exact getMappingDatas_range_res r hnorm tl acc htl (fun e he => hacc e (by simp [he]))
    | some val =>
      simp only
      rw [mapSet_fresh acc k _ hfresh,
        getMappingDatas_range_res r hnorm tl _ htl
          (range_step_fresh acc tl k _ hk (fun e he => hacc e (by simp [he])))]
      simp
end

/-! ## `Self` -/

theorem Self_eq (r : MetadataRepo) (clientIP nodePath : String) (hip : clientIP ≠ "") :
    Self r clientIP nodePath =
      match (r.mapping.Get (pathJoin ["/", clientIP])).2 with
      | none => ⟨[.mappingGet (pathJoin ["/", clientIP])], .ok none⟩
      | some (.leaf _) => ⟨[.mappingGet (pathJoin ["/", clientIP])], .ok none⟩
      | some (.dir mapping) =>
        ⟨.mappingGet (pathJoin ["/", clientIP]) ::
            (getMappingDatas r (pathJoin ["/", nodePath]) (.dir mapping)).ops,
          (getMappingDatas r (pathJoin ["/", nodePath]) (.dir mapping)).res⟩ := by
  simp only [Self, hip, if_false, Run.bind_eq, GetMapping, Run.bind_perform]
  cases h : (r.mapping.Get (pathJoin ["/", clientIP])).2 with
  | none => rfl
  | some v => cases v <;> rfl

theorem pathJoin_root_root : pathJoin ["/", "/"] = "/" := by decide

theorem treeStore_normalizes (version : Int) (root : Node) :
    (treeStore version root).Normalizes := by
  intro p
  simp only [treeStore, pathSegments, pathJoin_root_idem]

theorem normSegs_pathJoin_root (p : String) :
    normSegs (pathJoin ["/", p]).data = normSegs p.data := by
  rw [pathJoin_root]
  exact normSegs_root_joinSlash _ (normSegs_normal p.data)

/-! ## Claims C1 to C4: the projection engine -/

/-- C1. For a client IP whose mapping entry is a directory `M`, `Self(ip, "/")`
returns the composite `P(M)`: a directory entry `(k, sub)` gives `P(M)[k] = P(sub)`,
a string entry `(k, link)` gives `P(M)[k] = data.Get(link)` when present and no key
when absent, and there are no other keys. The data store normalizes the paths it
is given, and `M` is a Go map (distinct keys in every directory). -/
theorem C1_self_root_projection (r : MetadataRepo) (clientIP : String)
    (M : List (String × Node))
    (hip : clientIP ≠ "")
    (hnorm : r.data.Normalizes)
    (huniq : (Node.dir M).uniqueKeys = true)
    (hmap : (r.mapping.Get (pathJoin ["/", clientIP])).2 = some (.dir M)) :
    (Self r clientIP "/").res = .ok (some (.dir (projection r.data M))) := by
  rw [Self_eq r clientIP "/" hip, hmap]
  simp only [pathJoin_root_root]
  exact getMappingDatas_root_res r hnorm (.dir M) huniq

/-- Witness of C1 on scenario S2: the projection of client `10.0.0.1`. -/
theorem C1_self_root_projection_witness :
    (Self sampleRepo "10.0.0.1" "/").res =
      .ok (some (.dir [("host", .dir [("name", .leaf "n1")]), ("net", .dir [])])) :=
  (C1_self_root_projection sampleRepo "10.0.0.1"
    [("host", .leaf "/hosts/h1"), ("net", .dir [("peer", .leaf "/hosts/h2")])]
    (by decide) (treeStore_normalizes 7 _) (by decide) (by decide)).trans (by decide)

/-- C2. For a client IP with a directory mapping `M` and a `nodePath` whose
segments are `pre ++ s :: rest`, where the segments `pre` name nested
submappings and `s` names a string leaf `link` of the submapping reached,
`Self(ip, nodePath)` returns exactly `data.Get(join(link, rest))`, and that read
is the only access to the data store. -/
theorem C2_partial_path_projection (r : MetadataRepo) (clientIP nodePath : String)
    (M M2 : List (String × Node)) (pre : List String) (s : String) (rest : List String)
    (link : String)
    (hip : clientIP ≠ "")
    (hmap : (r.mapping.Get (pathJoin ["/", clientIP])).2 = some (.dir M))
    (hseg : pathSegments nodePath = pre ++ s :: rest)
    (hpre : descend M pre = some M2)
    (hleaf : mapGet M2 s = some (.leaf link)) :
    Self r clientIP nodePath =
      ⟨[.mappingGet (pathJoin ["/", clientIP]),
          .dataGet (pathJoin [link, stringsJoin rest])],
        .ok (r.data.Get (pathJoin [link, stringsJoin rest])).2⟩ := by
  have hn := normSegs_of_pathSegments nodePath _ hseg
  have hnormal := map_data_normal nodePath _ hn
  have hrest : ∀ t ∈ rest.map String.data, NormalSeg t := fun t ht =>
    hnormal t (by
      simp only [List.map_append, List.map_cons, List.mem_append, List.mem_cons]
      exact Or.inr (Or.inr ht))
  rw [Self_eq r clientIP nodePath hip, hmap]
  simp only
  rw [getMappingDatas_descend r pre (pathJoin ["/", nodePath]) M M2 s rest
    (by rw [normSegs_pathJoin_root]; exact hn) hpre, hleaf]
  simp only [getMappingData, Run.perform, pathJoin_segments rest hrest]

/-- Witness of C2 on scenario S2: `Self("10.0.0.1", "/host/name")` is
`data.Get("/hosts/h1/name")`, the string `n1`. -/
theorem C2_partial_path_projection_witness :
    Self sampleRepo "10.0.0.1" "/host/name" =
      ⟨[.mappingGet "/10.0.0.1", .dataGet "/hosts/h1/name"], .ok (some (.leaf "n1"))⟩ :=
  (C2_partial_path_projection sampleRepo "10.0.0.1" "/host/name"
    [("host", .leaf "/hosts/h1"), ("net", .dir [("peer", .leaf "/hosts/h2")])]
    [("host", .leaf "/hosts/h1"), ("net", .dir [("peer", .leaf "/hosts/h2")])]
    [] "host" ["name"] "/hosts/h1"
    (by decide) (by decide) (by decide) (by decide) (by decide)).trans (by decide)

/-- C3, as the specification states it, fails: with `10.0.0.1` mapped directly
to the string `/hosts/h1` and `data.Get("/hosts/h1/name")` present,
`Self("10.0.0.1", "/name")` returns nothing instead of that value. -/
theorem C3_single_string_mapping_counterexample :
    (sampleRepoStringMapping.mapping.Get (pathJoin ["/", "10.0.0.1"])).2 =
        some (.leaf "/hosts/h1") ∧
      (sampleRepoStringMapping.data.Get (pathJoin ["/hosts/h1", "/name"])).2 =
        some (.leaf "n1") ∧
      (Self sampleRepoStringMapping "10.0.0.1" "/name").res = .ok none ∧
      (Self sampleRepoStringMapping "10.0.0.1" "/name").res ≠
        .ok (sampleRepoStringMapping.data.Get (pathJoin ["/hosts/h1", "/name"])).2 := by
  decide

/-- C3, amended. For a client IP whose mapping entry is a single string and every
`nodePath`, `Self(ip, nodePath)` returns nothing, and the data store is not
read: the mapping lookup is the only operation. -/
theorem C3_single_string_mapping_returns_nothing (r : MetadataRepo)
    (clientIP nodePath link : String)
    (hip : clientIP ≠ "")
    (hmap : (r.mapping.Get (pathJoin ["/", clientIP])).2 = some (.leaf link)) :
    Self r clientIP nodePath = ⟨[.mappingGet (pathJoin ["/", clientIP])], .ok none⟩ := by
  rw [Self_eq r clientIP nodePath hip, hmap]

/-- Witness of the amended C3 on the repository that maps `10.0.0.1` to a string. -/
theorem C3_single_string_mapping_returns_nothing_witness :
    Self sampleRepoStringMapping "10.0.0.1" "/name" = ⟨[.mappingGet "/10.0.0.1"], .ok none⟩ :=
  C3_single_string_mapping_returns_nothing sampleRepoStringMapping "10.0.0.1" "/name"
    "/hosts/h1" (by decide) (by decide)

/-- C4. `Self(ip, nodePath)` returns nothing when the mapping tree has no entry
for `/ip`, and also when the walk of a directory mapping along the segments of
`nodePath`, through nested submappings, reaches a segment that is not a key of
the current mapping directory. In both cases the mapping lookup is the only
operation: the data store is not consulted. -/
theorem C4_unresolvable_returns_nothing (r : MetadataRepo) (clientIP nodePath : String)
    (hip : clientIP ≠ "")
    (h : (r.mapping.Get (pathJoin ["/", clientIP])).2 = none ∨
      ∃ (M M2 : List (String × Node)) (pre : List String) (s : String) (rest : List String),
        (r.mapping.Get (pathJoin ["/", clientIP])).2 = some (.dir M) ∧
        pathSegments nodePath = pre ++ s :: rest ∧
        descend M pre = some M2 ∧
        mapGet M2 s = none) :
    Self r clientIP nodePath = ⟨[.mappingGet (pathJoin ["/", clientIP])], .ok none⟩ := by
  rcases h with h | ⟨M, M2, pre, s, rest, hmap, hseg, hpre, hmiss⟩
  · rw [Self_eq r clientIP nodePath hip, h]
  · have hn := normSegs_of_pathSegments nodePath _ hseg
    rw [Self_eq r clientIP nodePath hip, hmap]
    simp only
    rw [getMappingDatas_descend r pre (pathJoin ["/", nodePath]) M M2 s rest
      (by rw [normSegs_pathJoin_root]; exact hn) hpre, hmiss]
    rfl

/-- Witness of C4: a client without mapping entry, and a path that leaves the
mapping of `10.0.0.1` below `net`. -/
theorem C4_unresolvable_returns_nothing_witness :
    Self sampleRepo "10.0.0.9" "/host" = ⟨[.mappingGet "/10.0.0.9"], .ok none⟩ ∧
      Self sampleRepo "10.0.0.1" "/net/nope/x" = ⟨[.mappingGet "/10.0.0.1"], .ok none⟩ :=
  ⟨C4_unresolvable_returns_nothing sampleRepo "10.0.0.9" "/host" (by decide)
      (Or.inl (by decide)),
    C4_unresolvable_returns_nothing sampleRepo "10.0.0.1" "/net/nope/x" (by decide)
      (Or.inr ⟨[("host", .leaf "/hosts/h1"), ("net", .dir [("peer", .leaf "/hosts/h2")])],
        [("peer", .leaf "/hosts/h2")], ["net"], "nope", ["x"],
        by decide, by decide, by decide, by decide⟩)⟩

/-! ## Mapping validation -/

theorem checkMappingPath_str (s : String) :
    checkMappingPath (.str s) = none ↔ s.data.head? = some '/' := by
  simp only [checkMappingPath]
  cases hs : s.data with
  | nil => simp
  | cons c cs => by_cases hc : c = '/' <;> simp [hc]

theorem checkMappingPath_none_iff (v : Value) (hv : ∀ m, v ≠ .map m) :
    checkMappingPath v = none ↔ v.leavesArePaths = true := by
  cases v with
  | str s => simpa [Value.leavesArePaths] using checkMappingPath_str s
  | other t => simp [checkMappingPath, Value.leavesArePaths]
  | map m => exact absurd rfl (hv m)

mutual
theorem checkMapping_none_iff :
    (v : Value) →
      (checkMapping v = none ↔
        (∃ m, v = .map m) ∧ v.leavesArePaths = true ∧ v.keysHaveNoSlash = true)
  | .str s => by simp [checkMapping]
  | .other t => by simp [checkMapping]
  | .map m => by
    have h := checkMapping_range_none_iff m
    simp only [checkMapping, Value.leavesArePaths, Value.keysHaveNoSlash, h]
    simp
theorem checkMapping_range_none_iff :
    (m : List (String × Value)) →
      (checkMapping.range m = none ↔
        Value.leavesArePaths.entries m = true ∧ Value.keysHaveNoSlash.entries m = true)
  | [] => by simp [checkMapping.range, Value.leavesArePaths.entries, Value.keysHaveNoSlash.entries]
  | (k, .str s) :: tl => by
    have ih := checkMapping_range_none_iff tl
    have hp := checkMappingPath_str s
    by_cases hk : containsSlash k = true
    · simp [checkMapping.range, Value.keysHaveNoSlash.entries, hk]
    · cases hc : checkMappingPath (.str s) with
      | none =>
        have := hp.mp hc
        simp [checkMapping.range, Value.leavesArePaths.entries, Value.keysHaveNoSlash.entries,
          Value.leavesArePaths, Value.keysHaveNoSlash, hk, hc, this, ih]
      | some e =>
        have : ¬ s.data.head? = some '/' := fun h => by
          rw [hp.mpr h] at hc
          exact Option.noConfusion hc
        simp [checkMapping.range, Value.leavesArePaths.entries, Value.keysHaveNoSlash.entries,
          Value.leavesArePaths, hk, hc, this]
  | (k, .other t) :: tl => by
    by_cases hk : containsSlash k = true
    · simp [checkMapping.range, Value.keysHaveNoSlash.entries, hk]
    · simp [checkMapping.range, Value.leavesArePaths.entries, Value.leavesArePaths, hk,
        checkMappingPath]
  | (k, .map sub) :: tl => by
    have ih := checkMapping_range_none_iff tl
    have hv := checkMapping_none_iff (.map sub)
    by_cases hk : containsSlash k = true
    · simp [checkMapping.range, Value.keysHaveNoSlash.entries, hk]
    · cases hc : checkMapping (.map sub) with
      | none =>
        have := hv.mp hc
        simp [checkMapping.range, Value.leavesArePaths.entries, Value.keysHaveNoSlash.entries,
          hk, hc, this.2.1, this.2.2, ih]
      | some e =>
        have hne : ¬ ((Value.map sub).leavesArePaths = true ∧
            (Value.map sub).keysHaveNoSlash = true) := fun h => by
          rw [hv.mpr ⟨⟨sub, rfl⟩, h⟩] at hc
          exact Option.noConfusion hc
        simp only [checkMapping.range, Value.leavesArePaths.entries,
          Value.keysHaveNoSlash.entries, hk, hc]
        simp only [Bool.and_eq_true, Bool.not_eq_true', Bool.false_eq_true, if_false]
        constructor
        · intro h
          exact Option.noConfusion h
        · rintro ⟨⟨h1, _⟩, ⟨_, h2⟩, _⟩
          exact absurd ⟨h1, h2⟩ hne
end

theorem checkMapping_bad_leaf (v : Value) (h : v.leavesArePaths = false) :
    ∃ err, checkMapping v = some err := by
  cases hc : checkMapping v with
  | some err => exact ⟨err, rfl⟩
  | none =>
    have := ((checkMapping_none_iff v).mp hc).2.1
    rw [h] at this
    exact Bool.noConfusion this

theorem checkMappingPath_bad_leaf (v : Value) (hv : ∀ m, v ≠ .map m)
    (h : v.leavesArePaths = false) : ∃ err, checkMappingPath v = some err := by
  cases hc : checkMappingPath v with
  | some err => exact ⟨err, rfl⟩
  | none =>
    have := (checkMappingPath_none_iff v hv).mp hc
    rw [h] at this
    exact Bool.noConfusion this

theorem PutMapping_range_none_iff (ParseIP : String → Bool) (m : List (String × Value)) :
    PutMapping.range ParseIP m = none ↔
      ∀ e ∈ m, ParseIP e.1 = true ∧ checkMapping e.2 = none := by
  induction m with
  | nil => simp [PutMapping.range]
  | cons kv tl ih =>
    obtain ⟨k, v⟩ := kv
    cases hp : ParseIP k with
    | false => simp [PutMapping.range, hp]
    | true =>
      cases hc : checkMapping v with
      | some e => simp [PutMapping.range, hp, hc]
      | none => simp [PutMapping.range, hp, hc, ih]

theorem PutMapping_range_some (ParseIP : String → Bool) (m : List (String × Value))
    (h : ¬ ∀ e ∈ m, ParseIP e.1 = true ∧ checkMapping e.2 = none) :
    ∃ err, PutMapping.range ParseIP m = some err := by
  cases hc : PutMapping.range ParseIP m with
  | some err => exact ⟨err, rfl⟩
  | none => exact absurd ((PutMapping_range_none_iff ParseIP m).mp hc) h

theorem leavesArePaths_entries_false (m : List (String × Value))
    (h : Value.leavesArePaths.entries m = false) :
    ∃ e ∈ m, e.2.leavesArePaths = false := by
  induction m with
  | nil => simp [Value.leavesArePaths.entries] at h
  | cons kv tl ih =>
    obtain ⟨k, v⟩ := kv
    cases hv : v.leavesArePaths with
    | false => exact ⟨(k, v), by simp, hv⟩
    | true =>
      simp only [Value.leavesArePaths.entries, hv, Bool.true_and] at h
      obtain ⟨e, he, hb⟩ := ih h
      exact ⟨e, by simp [he], hb⟩

/-! ## Unfolding `PutMapping` -/

theorem stringsSplit_pathJoin_root_cons (p : String) (s : List Char) (rest : List (List Char))
    (h : normSegs p.data = s :: rest) :
    stringsSplit (pathJoin ["/", p]) = "" :: String.mk s :: rest.map String.mk := by
  rw [pathJoin_root]
  simp only [stringsSplit, splitSlash_cons_slash, List.map_cons]
  rw [splitSlash_joinSlash _ (by simp [h]) (fun t ht => (normSegs_normal p.data t ht).2.2.2), h]
  rfl

theorem PutMapping_root (ParseIP : String → Bool) (r : MetadataRepo) (nodePath : String)
    (data : Value) (replace : Bool) (hroot : pathJoin ["/", nodePath] = "/") :
    PutMapping ParseIP r nodePath data replace =
      match data with
      | .map m =>
        match PutMapping.range ParseIP m with
        | some err => Run.pure (some err)
        | none =>
          Run.perform (.backendPutMapping "/" data replace)
            (r.storeClient.PutMapping "/" data replace)
      | _ => Run.pure (some "mapping data should be json object.") := by
  simp only [PutMapping, hroot, if_true]

theorem PutMapping_nonroot (ParseIP : String → Bool) (r : MetadataRepo) (nodePath : String)
    (data : Value) (replace : Bool) (seg : String) (rest : List String)
    (hseg : pathSegments nodePath = seg :: rest) :
    PutMapping ParseIP r nodePath data replace =
      if ParseIP seg = false then Run.pure (some "mapping's first level key should be ip .")
      else if rest = [] then
        match checkMapping data with
        | some err => Run.pure (some err)
        | none =>
          Run.perform (.backendPutMapping (pathJoin ["/", nodePath]) data replace)
            (r.storeClient.PutMapping (pathJoin ["/", nodePath]) data replace)
      else
        match data with
        | .map _ =>
          match checkMapping data with
          | some err => Run.pure (some err)
          | none =>
            Run.perform (.backendPutMapping (pathJoin ["/", nodePath]) data replace)
              (r.storeClient.PutMapping (pathJoin ["/", nodePath]) data replace)
        | _ =>
          match checkMappingPath data with
          | some err => Run.pure (some err)
          | none =>
            Run.perform (.backendPutMapping (pathJoin ["/", nodePath]) data replace)
              (r.storeClient.PutMapping (pathJoin ["/", nodePath]) data replace) := by
  have hn := normSegs_of_pathSegments nodePath _ hseg
  simp only [List.map_cons] at hn
  have hne : pathJoin ["/", nodePath] ≠ "/" := by
    rw [Ne, pathJoin_root_eq_root_iff, hn]
    simp
  have hsplit := stringsSplit_pathJoin_root_cons nodePath _ _ hn
  have hseg2 : String.mk seg.data = seg := rfl
  simp only [PutMapping, hne, if_false, hsplit, hseg2, List.getElem?_cons_succ,
    List.getElem?_cons_zero]
  have hlen : ("" :: seg :: List.map String.mk (List.map String.data rest)).length = 2 ↔
      rest = [] := by
    cases rest <;> simp
  simp only [hlen]

theorem pathSegments_of_nonroot (nodePath : String) (hne : pathJoin ["/", nodePath] ≠ "/") :
    ∃ seg rest, pathSegments nodePath = seg :: rest := by
  rw [pathSegments_eq]
  cases hS : normSegs nodePath.data with
  | nil => exact absurd ((pathJoin_root_eq_root_iff nodePath).mpr hS) hne
  | cons s rest => exact ⟨String.mk s, rest.map String.mk, rfl⟩

/-! ## Claims C5 to C8: mapping validation on write -/

/-- C5, as the specification states it, fails: the string `/x` has a single
leaf, a string beginning with `/`, and no key at all, and `checkMapping`
rejects it because it is not a map. -/
theorem C5_checkMapping_counterexample :
    (Value.str "/x").leavesArePaths = true ∧ (Value.str "/x").keysHaveNoSlash = true ∧
      checkMapping (.str "/x") = some "mapping data should be json object." := by
  decide

/-- C5, amended. For every value `v`, `checkMapping(v)` returns no error if and
only if `v` is a map, every leaf of `v` is a string beginning with `/`, and no key
at any depth of `v` contains the character `/`. -/
theorem C5_checkMapping_accepts_iff (v : Value) :
    checkMapping v = none ↔
      (∃ m, v = .map m) ∧ v.leavesArePaths = true ∧ v.keysHaveNoSlash = true :=
  checkMapping_none_iff v

/-- C6, as the specification states it, fails: the only first-level key of the
map with the single entry `"10.0.0.1": "/x"` parses as an IP, and
`PutMapping("/", m)` returns an error because the value under the key is not a
map; the backend is not called. -/
theorem C6_putMapping_root_counterexample :
    (∀ e ∈ [("10.0.0.1", Value.str "/x")], sampleParseIP e.1 = true) ∧
      PutMapping sampleParseIP sampleRepo "/" (.map [("10.0.0.1", .str "/x")]) false =
        ⟨[], .ok (some "mapping data should be json object.")⟩ := by
  decide

/-- C6, amended. For every map `m`, `PutMapping("/", m, replace)` returns no
error if and only if every first-level key of `m` parses as an IP literal, every
first-level value of `m` is accepted by `checkMapping`, and the backend's
`PutMapping` returns no error. -/
theorem C6_putMapping_root_succeeds_iff (ParseIP : String → Bool) (r : MetadataRepo)
    (m : List (String × Value)) (replace : Bool) :
    (PutMapping ParseIP r "/" (.map m) replace).res = .ok none ↔
      (∀ e ∈ m, ParseIP e.1 = true) ∧ (∀ e ∈ m, checkMapping e.2 = none) ∧
        r.storeClient.PutMapping "/" (.map m) replace = none := by
  rw [PutMapping_root ParseIP r "/" (.map m) replace pathJoin_root_root]
  simp only
  cases hr : PutMapping.range ParseIP m with
  | some err =>
    have hno : ¬ ∀ e ∈ m, ParseIP e.1 = true ∧ checkMapping e.2 = none := fun h => by
      rw [(PutMapping_range_none_iff ParseIP m).mpr h] at hr
      exact Option.noConfusion hr
    simp only [Run.pure, Except.ok.injEq]
    constructor
    · intro h
      exact Option.noConfusion h
    · rintro ⟨h1, h2, _⟩
      exact absurd (fun e he => ⟨h1 e he, h2 e he⟩) hno
  | none =>
    have hall := (PutMapping_range_none_iff ParseIP m).mp hr
    simp only [Run.perform, Except.ok.injEq]
    constructor
    · intro h
      exact ⟨fun e he => (hall e he).1, fun e he => (hall e he).2, h⟩
    · rintro ⟨_, _, h⟩
      exact h

/-- C7. If the normalized `nodePath` is `/` and `data` is a map with at least one
key that does not parse as an IP literal, or the normalized `nodePath` is not `/`
and its first segment does not parse as an IP literal, then `PutMapping` returns
an error and performs no operation: the backend's `PutMapping` is not invoked. -/
theorem C7_non_ip_key_rejected (ParseIP : String → Bool) (r : MetadataRepo)
    (nodePath : String) (data : Value) (replace : Bool)
    (h : (pathJoin ["/", nodePath] = "/" ∧
          ∃ m, data = .map m ∧ ∃ e ∈ m, ParseIP e.1 = false) ∨
        (pathJoin ["/", nodePath] ≠ "/" ∧
          ∃ seg rest, pathSegments nodePath = seg :: rest ∧ ParseIP seg = false)) :
    (PutMapping ParseIP r nodePath data replace).ops = [] ∧
      ∃ err, (PutMapping ParseIP r nodePath data replace).res = .ok (some err) := by
  rcases h with ⟨hroot, m, rfl, e, he, hip⟩ | ⟨_, seg, rest, hseg, hip⟩
  · rw [PutMapping_root ParseIP r nodePath _ replace hroot]
    obtain ⟨err, herr⟩ := PutMapping_range_some ParseIP m (fun hall => by
      have := (hall e he).1
      rw [hip] at this
      exact Bool.noConfusion this)
    simp only [herr]
    exact ⟨rfl, err, rfl⟩
  · rw [PutMapping_nonroot ParseIP r nodePath data replace seg rest hseg]
    simp only [hip, if_true]
    exact ⟨rfl, _, rfl⟩

/-- Witness of C7: scenario S7, `PutMapping` at `/` of the map with the single
entry `"not-an-ip": "/x"`, and a write below a first segment that is not an IP. -/
theorem C7_non_ip_key_rejected_witness :
    ((PutMapping sampleParseIP sampleRepo "/" (.map [("not-an-ip", .str "/x")]) false).ops = [] ∧
        ∃ err, (PutMapping sampleParseIP sampleRepo "/"
          (.map [("not-an-ip", .str "/x")]) false).res = .ok (some err)) ∧
      ((PutMapping sampleParseIP sampleRepo "/nope/a" (.str "/x") true).ops = [] ∧
        ∃ err, (PutMapping sampleParseIP sampleRepo "/nope/a" (.str "/x") true).res =
          .ok (some err)) :=
  ⟨C7_non_ip_key_rejected sampleParseIP sampleRepo "/" (.map [("not-an-ip", .str "/x")]) false
      (Or.inl ⟨by decide, [("not-an-ip", .str "/x")], rfl, ("not-an-ip", .str "/x"),
        by simp, by decide⟩),
    C7_non_ip_key_rejected sampleParseIP sampleRepo "/nope/a" (.str "/x") true
      (Or.inr ⟨by decide, "nope", ["a"], by decide, by decide⟩)⟩

/-- C8. For every `nodePath` and every `data` that contains, at any depth, a leaf
that is not a string starting with `/` (the empty string and the values that are
not strings included), `PutMapping(nodePath, data, replace)` returns an error and
performs no operation: the backend's `PutMapping` is not invoked. -/
theorem C8_bad_leaf_rejected (ParseIP : String → Bool) (r : MetadataRepo)
    (nodePath : String) (data : Value) (replace : Bool)
    (hbad : data.leavesArePaths = false) :
    (PutMapping ParseIP r nodePath data replace).ops = [] ∧
      ∃ err, (PutMapping ParseIP r nodePath data replace).res = .ok (some err) := by
  by_cases hroot : pathJoin ["/", nodePath] = "/"
  · rw [PutMapping_root ParseIP r nodePath data replace hroot]
    cases data with
    | str s => exact ⟨rfl, _, rfl⟩
    | other t => exact ⟨rfl, _, rfl⟩
    | map m =>
      simp only [Value.leavesArePaths] at hbad
      obtain ⟨e, he, hb⟩ := leavesArePaths_entries_false m hbad
      obtain ⟨err2, herr2⟩ := checkMapping_bad_leaf e.2 hb
      obtain ⟨err, herr⟩ := PutMapping_range_some ParseIP m (fun hall => by
        have := (hall e he).2
        rw [herr2] at this
        exact Option.noConfusion this)
      simp only [herr]
      exact ⟨rfl, err, rfl⟩
  · obtain ⟨seg, rest, hseg⟩ := pathSegments_of_nonroot nodePath hroot
    obtain ⟨err, herr⟩ := checkMapping_bad_leaf data hbad
    rw [PutMapping_nonroot ParseIP r nodePath data replace seg rest hseg]
    split
    · exact ⟨rfl, _, rfl⟩
    · split
      · simp only [herr]
        exact ⟨rfl, err, rfl⟩
      · cases data with
        | map m =>
          simp only [herr]
          exact ⟨rfl, err, rfl⟩
        | str s =>
          obtain ⟨err3, herr3⟩ := checkMappingPath_bad_leaf (.str s) (by simp) hbad
          simp only [herr3]
          exact ⟨rfl, err3, rfl⟩
        | other t =>
          obtain ⟨err3, herr3⟩ := checkMappingPath_bad_leaf (.other t) (by simp) hbad
          simp only [herr3]
          exact ⟨rfl, err3, rfl⟩

/-- Witness of C8: a number two levels below an IP key at the root, a relative
path written at `/ip`, and the empty string written at `/ip/key`. -/
theorem C8_bad_leaf_rejected_witness :
    ((PutMapping sampleParseIP sampleRepo "/"
        (.map [("10.0.0.1", .map [("a", .map [("b", .other "3")])])]) false).ops = [] ∧
      ∃ err, (PutMapping sampleParseIP sampleRepo "/"
        (.map [("10.0.0.1", .map [("a", .map [("b", .other "3")])])]) false).res =
          .ok (some err)) ∧
    ((PutMapping sampleParseIP sampleRepo "/10.0.0.1" (.map [("a", .str "x")]) true).ops = [] ∧
      ∃ err, (PutMapping sampleParseIP sampleRepo "/10.0.0.1"
        (.map [("a", .str "x")]) true).res = .ok (some err)) ∧
    ((PutMapping sampleParseIP sampleRepo "/10.0.0.1/a" (.str "") true).ops = [] ∧
      ∃ err, (PutMapping sampleParseIP sampleRepo "/10.0.0.1/a" (.str "") true).res =
        .ok (some err)) :=
  ⟨C8_bad_leaf_rejected sampleParseIP sampleRepo "/"
      (.map [("10.0.0.1", .map [("a", .map [("b", .other "3")])])]) false (by decide),
    C8_bad_leaf_rejected sampleParseIP sampleRepo "/10.0.0.1" (.map [("a", .str "x")]) true
      (by decide),
    C8_bad_leaf_rejected sampleParseIP sampleRepo "/10.0.0.1/a" (.str "") true (by decide)⟩

/-! ## Claims C9 and C10: root composition -/

theorem mapGet_append_fresh {α : Type} (m : List (String × α)) (k : String) (v : α)
    (h : ∀ a ∈ m, a.1 ≠ k) : mapGet (m ++ [(k, v)]) k = some v := by
  induction m with
  | nil => simp [mapGet]
  | cons kv tl ih =>
    obtain ⟨k2, v2⟩ := kv
    have hk : k2 ≠ k := h (k2, v2) (by simp)
    simp only [List.cons_append, mapGet, hk, if_false]
    exact ih (fun a ha => h a (by simp [ha]))

/-- After `m[k] = v`, the map binds `k` to `v`. -/
theorem mapGet_mapSet_same {α : Type} (m : List (String × α)) (k : String) (v : α) :
    mapGet (mapSet m k v) k = some v := by
  unfold mapSet
  apply mapGet_append_fresh
  intro a ha
  simpa using (List.mem_filter.mp ha).2

/-- After `m[k] = v`, every other key is bound as before. -/
theorem mapGet_mapSet_other {α : Type} (m : List (String × α)) (k k2 : String) (v : α)
    (h : k2 ≠ k) : mapGet (mapSet m k v) k2 = mapGet m k2 := by
  unfold mapSet
  induction m with
  | nil => simp [mapGet, Ne.symm h]
  | cons kv tl ih =>
    obtain ⟨k3, v3⟩ := kv
    by_cases h3 : k3 = k
    · have h5 : k3 ≠ k2 := by
        rw [h3]
        exact Ne.symm h
      have hf : List.filter (fun e => decide (e.1 ≠ k)) ((k3, v3) :: tl) =
          List.filter (fun e => decide (e.1 ≠ k)) tl := by
        simp [List.filter_cons, h3]
      rw [hf, ih]
      simp [mapGet, h5]
    · have hf : List.filter (fun e => decide (e.1 ≠ k)) ((k3, v3) :: tl) =
          (k3, v3) :: List.filter (fun e => decide (e.1 ≠ k)) tl := by
        simp [List.filter_cons, h3]
      rw [hf]
      by_cases h4 : k3 = k2
      · simp [mapGet, h4]
      · simp only [List.cons_append, mapGet, h4, if_false]
        exact ih

theorem Root_onlySelf_false (r : MetadataRepo) (clientIP nodePath : String)
    (honly : r.onlySelf = false) :
    Root r clientIP nodePath =
      Run.bind (Run.perform (.dataGet (pathJoin ["/", nodePath]))
          (r.data.Get (pathJoin ["/", nodePath])))
        (fun got =>
          match got.2 with
          | none => Run.pure (got.1, none)
          | some v =>
            if pathJoin ["/", nodePath] = "/" then
              Run.bind (Self r clientIP "/") (fun selfVal =>
                match selfVal, v with
                | some selfVal, .dir mapVal =>
                  Run.pure (got.1, some (.dir (mapSet mapVal "self" selfVal)))
                | _, _ => Run.pure (got.1, some v))
            else Run.pure (got.1, some v)) := by
  simp only [Root, honly]
  rfl

theorem Root_onlySelf_true (r : MetadataRepo) (clientIP nodePath : String)
    (honly : r.onlySelf = true) :
    Root r clientIP nodePath =
      Run.bind (Run.perform .dataVersion r.data.Version) (fun currentVersion =>
        if pathJoin ["/", nodePath] = "/" then
          Run.bind (Self r clientIP "/") (fun selfVal =>
            match selfVal with
            | some selfVal => Run.pure (currentVersion, some (.dir (mapSet [] "self" selfVal)))
            | none => Run.pure (currentVersion, some (.dir [])))
        else Run.pure (currentVersion, none)) := by
  simp only [Root, honly]
  rfl

/-- C9. With `onlySelf = false`: when the normalized `nodePath` is `/` and
`data.Get("/")` is a directory `d` at version `ver`, `Root(ip, nodePath)` returns
`ver` and `d` with the key `self` bound to the projection `Self(ip, "/")`, which
replaces a child of `d` named `self` and leaves every other key as it is, and
returns `d` unchanged when the projection is absent; when the normalized
`nodePath` is not `/`, `Root` returns exactly `data.Get` of the normalized
`nodePath`, and that read is its only operation. -/
theorem C9_root_composition (r : MetadataRepo) (clientIP nodePath : String)
    (honly : r.onlySelf = false) :
    (pathJoin ["/", nodePath] = "/" →
      ∀ (ver : Int) (d : List (String × Node)) (selfVal : Option Node),
        r.data.Get "/" = (ver, some (.dir d)) →
        (Self r clientIP "/").res = .ok selfVal →
        ∃ val, (Root r clientIP nodePath).res = .ok (ver, some (.dir val)) ∧
          match selfVal with
          | some sv =>
            val = mapSet d "self" sv ∧ mapGet val "self" = some sv ∧
              ∀ k, k ≠ "self" → mapGet val k = mapGet d k
          | none => val = d) ∧
    (pathJoin ["/", nodePath] ≠ "/" →
      Root r clientIP nodePath =
        ⟨[.dataGet (pathJoin ["/", nodePath])], .ok (r.data.Get (pathJoin ["/", nodePath]))⟩) := by
  rw [Root_onlySelf_false r clientIP nodePath honly]
  constructor
  · intro hroot ver d selfVal hget hself
    simp only [hroot, hget, Run.bind_perform, if_true]
    rw [Run.bind_ok _ _ _ hself]
    cases selfVal with
    | none => exact ⟨d, rfl, rfl⟩
    | some sv =>
      exact ⟨mapSet d "self" sv, rfl, rfl, mapGet_mapSet_same d "self" sv,
        fun k hk => mapGet_mapSet_other d "self" k sv hk⟩
  · intro hroot
    simp only [hroot, Run.bind_perform, if_false]
    cases hget : (r.data.Get (pathJoin ["/", nodePath])).2 with
    | none =>
      simp only [Run.pure]
      rw [← hget]
    | some v =>
      simp only [Run.pure]
      rw [← hget]

/-- Witness of C9 on scenario S2, whose data tree also has a child `self`: at the
root the projection replaces that child, and `/hosts/h1` is returned as stored. -/
theorem C9_root_composition_witness :
    (∃ val, (Root sampleRepo "10.0.0.1" "/").res = .ok (7, some (.dir val)) ∧
        val = mapSet [("hosts", .dir [("h1", .dir [("name", .leaf "n1")])]),
            ("self", .leaf "shadowed")] "self"
          (.dir [("host", .dir [("name", .leaf "n1")]), ("net", .dir [])]) ∧
        mapGet val "self" =
          some (.dir [("host", .dir [("name", .leaf "n1")]), ("net", .dir [])]) ∧
        ∀ k, k ≠ "self" → mapGet val k =
          mapGet [("hosts", Node.dir [("h1", .dir [("name", .leaf "n1")])]),
            ("self", .leaf "shadowed")] k) ∧
      Root sampleRepo "10.0.0.1" "/hosts/h1/" =
        ⟨[.dataGet (pathJoin ["/", "/hosts/h1/"])],
          .ok (sampleRepo.data.Get (pathJoin ["/", "/hosts/h1/"]))⟩ :=
  ⟨(C9_root_composition sampleRepo "10.0.0.1" "/" rfl).1 (by decide) 7
      [("hosts", .dir [("h1", .dir [("name", .leaf "n1")])]), ("self", .leaf "shadowed")]
      (some (.dir [("host", .dir [("name", .leaf "n1")]), ("net", .dir [])]))
      (by decide) (by decide),
    (C9_root_composition sampleRepo "10.0.0.1" "/hosts/h1/" rfl).2 (by decide)⟩

/-- C10, as the specification states it, fails. In only-self mode `Root(ip, "/")`
reads the contents of the data tree through the projection (here
`data.Get("/hosts/h1")` and `data.Get("/hosts/h2")`), and for a client without
projection it returns the empty map, which has no key `self`. -/
theorem C10_only_self_root_counterexample :
    (Root sampleRepoOnlySelf "10.0.0.1" "/").ops =
        [.dataVersion, .mappingGet "/10.0.0.1", .dataGet "/hosts/h1", .dataGet "/hosts/h2"] ∧
      (Self sampleRepoOnlySelf "10.0.0.9" "/").res = .ok none ∧
      (Root sampleRepoOnlySelf "10.0.0.9" "/").res = .ok (7, some (.dir [])) := by
  decide

/-- C10, amended. With `onlySelf = true`: when the normalized `nodePath` is not
`/`, `Root` returns nothing as its value and reads of the data store only its
version counter; when it is `/`, `Root` returns the map whose only key is `self`,
bound to `Self(ip, "/")`, when that projection is present and the empty map when
it is absent (no key of the data tree is exposed), and beyond the version
counter it performs exactly the operations of `Self(ip, "/")`. -/
theorem C10_only_self_root (r : MetadataRepo) (clientIP nodePath : String)
    (honly : r.onlySelf = true) :
    (pathJoin ["/", nodePath] ≠ "/" →
      Root r clientIP nodePath = ⟨[.dataVersion], .ok (r.data.Version, none)⟩) ∧
    (pathJoin ["/", nodePath] = "/" →
      ∀ selfVal, (Self r clientIP "/").res = .ok selfVal →
        Root r clientIP nodePath =
          ⟨.dataVersion :: (Self r clientIP "/").ops,
            .ok (r.data.Version, some (.dir
              (match selfVal with
                | some sv => [("self", sv)]
                | none => [])))⟩) := by
  rw [Root_onlySelf_true r clientIP nodePath honly]
  constructor
  · intro hroot
    simp only [hroot, Run.bind_perform, if_false]
    rfl
  · intro hroot selfVal hself
    simp only [hroot, Run.bind_perform, if_true]
    rw [Run.bind_ok _ _ _ hself]
    cases selfVal with
    | none => simp [Run.pure]
    | some sv => simp [Run.pure, mapSet]

/-- Witness of the amended C10 on the sample repository in only-self mode. -/
theorem C10_only_self_root_witness :
    Root sampleRepoOnlySelf "10.0.0.1" "/x" = ⟨[.dataVersion], .ok (7, none)⟩ ∧
      Root sampleRepoOnlySelf "10.0.0.1" "/" =
        ⟨[.dataVersion, .mappingGet "/10.0.0.1", .dataGet "/hosts/h1", .dataGet "/hosts/h2"],
          .ok (7, some (.dir [("self",
            .dir [("host", .dir [("name", .leaf "n1")]), ("net", .dir [])])]))⟩ :=
  ⟨(C10_only_self_root sampleRepoOnlySelf "10.0.0.1" "/x" rfl).1 (by decide),
    (C10_only_self_root sampleRepoOnlySelf "10.0.0.1" "/" rfl).2 (by decide)
      (some (.dir [("host", .dir [("name", .leaf "n1")]), ("net", .dir [])])) (by decide)⟩

/-! ## The coalescer -/

theorem Run.bind_res {α β : Type} (x : Run α) (f : α → Run β) (a : α) (h : x.res = .ok a) :
    (Run.bind x f).res = (f a).res := by
  rw [Run.bind_ok x f a h]

theorem changeToResult_loop_event (Expand : List (String × String) → String → Node)
    (m : List (String × String)) (armed : Bool) (e : Event) (rest : List Signal)
    (he : e.Path ≠ "/") :
    (changeToResult.loop Expand m armed (.event e :: rest)).res =
      (changeToResult.loop Expand (mapSet m e.Path e.text) true rest).res := by
  simp only [changeToResult.loop, he, if_false, Run.bind_eq]
  cases armed <;> simp [Run.bind, Run.perform, Run.pure, Event.text]

theorem changeToResult_loop_events (Expand : List (String × String) → String → Node)
    (events : List Event) :
    ∀ (m : List (String × String)) (armed : Bool) (tail : List Signal),
      (∀ e ∈ events, e.Path ≠ "/") →
      (changeToResult.loop Expand m armed (events.map Signal.event ++ tail)).res =
        (changeToResult.loop Expand
          (events.foldl (fun acc e => mapSet acc e.Path e.text) m)
          (armed || !events.isEmpty) tail).res := by
  induction events with
  | nil => intro m armed tail _; simp
  | cons e tl ih =>
    intro m armed tail h
    rw [List.map_cons, List.cons_append,
      changeToResult_loop_event Expand m armed e _ (h e (by simp)),
      ih _ true tail (fun x hx => h x (by simp [hx]))]
    simp

theorem changeToResult_res (Expand : List (String × String) → String → Node)
    (signals : List Signal) (val : Option Node) (rest : List Signal)
    (h : (changeToResult.loop Expand [] false signals).res = .ok (.returned val rest)) :
    (changeToResult Expand signals).res = .ok (.returned val rest) := by
  simp only [changeToResult, Run.bind_eq]
  rw [Run.bind_res _ _ _ h]
  rfl

theorem mapGet_foldl_events (events : List Event) (p : String) :
    mapGet (events.foldl (fun acc e => mapSet acc e.Path e.text) []) p = lastText events p := by
  induction events using List.reverseRecOn with
  | nil => rfl
  | append_singleton l e ih =>
    simp only [List.foldl_append, List.foldl_cons, List.foldl_nil, lastText,
      List.reverse_append, List.reverse_cons, List.reverse_nil, List.nil_append,
      List.singleton_append, List.find?_cons]
    by_cases hp : e.Path = p
    · subst hp
      simp [mapGet_mapSet_same]
    · rw [mapGet_mapSet_other _ _ _ _ (Ne.symm hp), ih]
      simp [hp, lastText]

theorem lastText_isSome_iff (events : List Event) (p : String) :
    (lastText events p).isSome = true ↔ ∃ e ∈ events, e.Path = p := by
  simp only [lastText, Option.isSome_map']
  cases hf : List.filter (fun e => decide (e.Path = p)) events with
  | nil =>
    simp only [List.getLast?_nil, Option.isSome_none, Bool.false_eq_true, false_iff]
    rintro ⟨e, he, hp⟩
    have : e ∈ List.filter (fun e => decide (e.Path = p)) events :=
      List.mem_filter.mpr ⟨he, by simpa using hp⟩
    rw [hf] at this
    exact List.not_mem_nil e this
  | cons x l =>
    have hx : x ∈ List.filter (fun e => decide (e.Path = p)) events := by
      rw [hf]
      simp
    have hx2 := List.mem_filter.mp hx
    have hsome : ((x :: l).getLast?).isSome = true := by
      rw [List.getLast?_eq_getLast _ (List.cons_ne_nil x l)]
      rfl
    simp only [hsome, true_iff]
    exact ⟨x, hx2.1, by simpa using hx2.2⟩

/-! ## Claims C11 to C13: the result coalescer -/

/-- C11. When the first event `e` delivered by the watcher has path `/`,
`changeToResult` returns the single string `e.Action ++ "|" ++ e.Value` (a leaf,
not a map) whatever signals follow: later events, timer and stop signals are
left unconsumed, no timer is taken, and the watcher is removed. -/
theorem C11_leaf_fast_path (Expand : List (String × String) → String → Node)
    (e : Event) (rest : List Signal) (he : e.Path = "/") :
    changeToResult Expand (.event e :: rest) =
      ⟨[.watcherRemove], .ok (.returned (some (.leaf (e.Action ++ "|" ++ e.Value))) rest)⟩ := by
  simp only [changeToResult, changeToResult.loop, he, if_true, Run.bind_eq]
  rfl

/-- Witness of C11 on scenario S5: the event `update` of the watched leaf with
value `9`, followed by a further event, a stop signal and a timer signal. -/
theorem C11_leaf_fast_path_witness :
    changeToResult sampleExpand
        [.event ⟨"update", "/", "9"⟩, .event ⟨"update", "/", "10"⟩, .stop, .timer] =
      ⟨[.watcherRemove],
        .ok (.returned (some (.leaf "update|9"))
          [.event ⟨"update", "/", "10"⟩, .stop, .timer])⟩ :=
  C11_leaf_fast_path sampleExpand ⟨"update", "/", "9"⟩
    [.event ⟨"update", "/", "10"⟩, .stop, .timer] rfl

theorem foldl_mapSet_events (events : List Event) :
    ∀ m : List (String × String),
      events.foldl (fun acc e => mapSet acc e.Path e.text) m =
        m.filter (fun kv => !(events.any (fun x => x.Path = kv.1))) ++ lastWriters events := by
  induction events with
  | nil => intro m; simp [lastWriters]
  | cons e tl ih =>
    intro m
    rw [List.foldl_cons, ih]
    simp only [mapSet, List.filter_append, List.filter_filter, List.append_assoc]
    congr 1
    · apply List.filter_congr
      intro kv _
      by_cases h : e.Path = kv.1
      · simp [h]
      · have h2 : kv.1 ≠ e.Path := fun x => h x.symm
        simp [h, h2]
    · by_cases hany : (tl.any fun x => decide (x.Path = e.Path)) = true
      · simp [lastWriters, hany, List.filter]
      · simp [lastWriters, hany, List.filter]

theorem foldl_mapSet_events_nil (events : List Event) :
    events.foldl (fun acc e => mapSet acc e.Path e.text) [] = lastWriters events := by
  rw [foldl_mapSet_events]
  rfl

theorem mem_keys_lastWriters (events : List Event) (p : String) :
    p ∈ (lastWriters events).map Prod.fst ↔ ∃ e ∈ events, e.Path = p := by
  induction events with
  | nil => simp [lastWriters]
  | cons e tl ih =>
    by_cases hany : (tl.any fun x => decide (x.Path = e.Path)) = true
    · simp only [lastWriters, hany, if_true, ih, List.mem_cons, exists_eq_or_imp]
      constructor
      · intro h
        exact Or.inr h
      · rintro (h | h)
        · obtain ⟨x, hx, hxp⟩ := List.any_eq_true.mp hany
          exact ⟨x, hx, by rw [← h]; simpa using hxp⟩
        · exact h
    · simp only [lastWriters, hany, if_false, List.map_cons, List.mem_cons, ih,
        exists_eq_or_imp, Bool.false_eq_true]
      constructor
      · rintro (h | h)
        · exact Or.inl h.symm
        · exact Or.inr h
      · rintro (h | h)
        · exact Or.inl h.symm
        · exact Or.inr h

theorem nodup_keys_lastWriters (events : List Event) :
    ((lastWriters events).map Prod.fst).Nodup := by
  induction events with
  | nil => simp [lastWriters]
  | cons e tl ih =>
    by_cases hany : (tl.any fun x => decide (x.Path = e.Path)) = true
    · simpa [lastWriters, hany] using ih
    · simp only [lastWriters, hany, if_false, List.map_cons, List.nodup_cons, Bool.false_eq_true]
      refine ⟨?_, ih⟩
      intro hmem
      obtain ⟨x, hx, hxp⟩ := (mem_keys_lastWriters tl e.Path).mp hmem
      exact hany (List.any_eq_true.mpr ⟨x, hx, by simpa using hxp⟩)

/-- C12. For a finite sequence of events, none with path `/`, followed by the
watcher channel closing or by the debounce timer firing (which a timer armed by
an event can do), with no stop signal, `changeToResult` returns
`flatmap.Expand(m, "/")` where `m` is the map `lastWriters events`: its keys are
pairwise distinct, they are exactly the paths occurring in the sequence, and each
path is mapped to the text `<action>|<value>` of the last event of the sequence
carrying that path. -/
theorem C12_batch_last_writer_wins (Expand : List (String × String) → String → Node)
    (events : List Event) (final : Signal) (rest : List Signal)
    (hpaths : ∀ e ∈ events, e.Path ≠ "/")
    (hfinal : final = .closed ∨ (final = .timer ∧ events ≠ [])) :
    (changeToResult Expand (events.map Signal.event ++ final :: rest)).res =
        .ok (.returned (some (Expand (lastWriters events) "/")) rest) ∧
      ((lastWriters events).map Prod.fst).Nodup ∧
      (∀ p, p ∈ (lastWriters events).map Prod.fst ↔ ∃ e ∈ events, e.Path = p) ∧
      (∀ p, mapGet (lastWriters events) p = lastText events p) ∧
      (∀ p, (mapGet (lastWriters events) p).isSome = true ↔ ∃ e ∈ events, e.Path = p) := by
  refine ⟨?_, nodup_keys_lastWriters events, mem_keys_lastWriters events, ?_, ?_⟩
  · apply changeToResult_res
    rw [changeToResult_loop_events Expand events [] false _ hpaths,
      foldl_mapSet_events_nil events]
    rcases hfinal with rfl | ⟨rfl, hne⟩
    · cases events <;> rfl
    · cases events with
      | nil => exact absurd rfl hne
      | cons e tl => rfl
  · intro p
    rw [← foldl_mapSet_events_nil events]
    exact mapGet_foldl_events events p
  · intro p
    rw [← foldl_mapSet_events_nil events, mapGet_foldl_events events p]
    exact lastText_isSome_iff events p

/-- Witness of C12: two events of `/b` around one of `/c`, ended by the timer
(the later `delete` of `/b` wins over its `update`), and scenario S4 ended by the
channel closing. -/
theorem C12_batch_last_writer_wins_witness :
    (changeToResult sampleExpand
        ([⟨"update", "/b", "1"⟩, ⟨"update", "/c", "2"⟩, ⟨"delete", "/b", ""⟩].map
          Signal.event ++ Signal.timer :: [.stop])).res =
        .ok (.returned (some (.dir [("c", .leaf "update|2"), ("b", .leaf "delete|")]))
          [.stop]) ∧
      (changeToResult sampleExpand
        ([⟨"update", "/b", "1"⟩, ⟨"update", "/c", "2"⟩].map Signal.event ++
          Signal.closed :: [])).res =
        .ok (.returned (some (.dir [("b", .leaf "update|1"), ("c", .leaf "update|2")])) []) :=
  ⟨(C12_batch_last_writer_wins sampleExpand
      [⟨"update", "/b", "1"⟩, ⟨"update", "/c", "2"⟩, ⟨"delete", "/b", ""⟩] .timer [.stop]
      (by decide) (Or.inr ⟨rfl, by decide⟩)).1.trans (by decide),
    (C12_batch_last_writer_wins sampleExpand
      [⟨"update", "/b", "1"⟩, ⟨"update", "/c", "2"⟩] .closed []
      (by decide) (Or.inl rfl)).1.trans (by decide)⟩

/-- C13. For a finite sequence of events, none with path `/`, accumulated before
the stop channel fires, `changeToResult` returns the expansion of the empty map:
none of the accumulated events is in the result. -/
theorem C13_cancellation_discards_batch (Expand : List (String × String) → String → Node)
    (events : List Event) (rest : List Signal)
    (hpaths : ∀ e ∈ events, e.Path ≠ "/") :
    (changeToResult Expand (events.map Signal.event ++ Signal.stop :: rest)).res =
      .ok (.returned (some (Expand [] "/")) rest) := by
  apply changeToResult_res
  rw [changeToResult_loop_events Expand events [] false _ hpaths]
  cases events <;> rfl

/-- Witness of C13: two accumulated events, then the stop channel. -/
theorem C13_cancellation_discards_batch_witness :
    (changeToResult sampleExpand
        ([⟨"update", "/b", "1"⟩, ⟨"update", "/c", "2"⟩].map Signal.event ++
          Signal.stop :: [])).res =
      .ok (.returned (some (.dir [])) []) :=
  C13_cancellation_discards_batch sampleExpand
    [⟨"update", "/b", "1"⟩, ⟨"update", "/c", "2"⟩] [] (by decide)

/-! ## Deleting -/

theorem checkSubs_some (subs : List String) (h : ∃ s ∈ subs, containsSlash s = true) :
    checkSubs subs = some "Sub node must not a path." := by
  induction subs with
  | nil =>
    obtain ⟨s, hs, _⟩ := h
    exact absurd hs (List.not_mem_nil s)
  | cons x tl ih =>
    by_cases hx : containsSlash x = true
    · simp [checkSubs, hx]
    · simp only [checkSubs, hx, if_false, Bool.false_eq_true]
      apply ih
      obtain ⟨s, hs, hc⟩ := h
      rcases List.mem_cons.mp hs with rfl | hs
      · exact absurd hc hx
      · exact ⟨s, hs, hc⟩

/-- The operations of `DeleteData` on one target: the read of the data store and,
when a value is found, the backend delete with the kind of that value. -/
theorem DeleteData_range_eq (r : MetadataRepo) (nodePath : String) (subs : List String)
    (hok : ∀ sub ∈ subs, ∀ v, (r.data.Get (pathJoin [nodePath, sub])).2 = some v →
      r.storeClient.Delete (pathJoin [nodePath, sub]) v.isDir = none) :
    DeleteData.range r nodePath subs =
      ⟨(subs.map (fun sub => pathJoin [nodePath, sub])).flatMap (fun t =>
          Op.dataGet t ::
            match (r.data.Get t).2 with
            | some v => [Op.backendDelete t v.isDir]
            | none => []),
        .ok none⟩ := by
  induction subs with
  | nil => rfl
  | cons sub tl ih =>
    have ih2 := ih (fun s hs => hok s (by simp [hs]))
    simp only [DeleteData.range, Run.bind_eq, Run.bind_perform, List.map_cons,
      List.flatMap_cons]
    cases hget : (r.data.Get (pathJoin [nodePath, sub])).2 with
    | none =>
      simp only [ih2]
      rfl
    | some v =>
      have hdel := hok sub (by simp) v hget
      simp only [Run.bind_perform, hdel, ih2]
      rfl

theorem DeleteMapping_range_eq (r : MetadataRepo) (nodePath : String) (subs : List String)
    (hok : ∀ sub ∈ (subs.map stringsTrimSpace).filter (fun sub => sub ≠ ""),
      ∀ v, (r.mapping.Get (pathJoin [nodePath, sub])).2 = some v →
        r.storeClient.DeleteMapping (pathJoin [nodePath, sub]) v.isDir = none) :
    DeleteMapping.range r nodePath subs =
      ⟨(((subs.map stringsTrimSpace).filter (fun sub => sub ≠ "")).map
          (fun sub => pathJoin [nodePath, sub])).flatMap (fun t =>
          Op.mappingGet t ::
            match (r.mapping.Get t).2 with
            | some v => [Op.backendDeleteMapping t v.isDir]
            | none => []),
        .ok none⟩ := by
  induction subs with
  | nil => rfl
  | cons sub tl ih =>
    by_cases hs : stringsTrimSpace sub = ""
    · have ih2 := ih (fun s hs2 => hok s (by
        simp only [List.map_cons, List.filter_cons, hs]
        simpa using hs2))
      simp only [DeleteMapping.range, hs, if_true, ih2, List.map_cons, List.filter_cons]
      simp
    · have hfilter : ((sub :: tl).map stringsTrimSpace).filter (fun sub => decide (sub ≠ "")) =
          stringsTrimSpace sub ::
            (tl.map stringsTrimSpace).filter (fun sub => decide (sub ≠ "")) := by
        simp [List.filter_cons, hs]
      rw [hfilter] at hok ⊢
      have ih2 := ih (fun s hs2 => hok s (List.mem_cons_of_mem _ hs2))
      simp only [DeleteMapping.range, hs, if_false, Run.bind_eq, Run.bind_perform,
        List.map_cons, List.flatMap_cons]
      cases hget : (r.mapping.Get (pathJoin [nodePath, stringsTrimSpace sub])).2 with
      | none =>
        simp only [ih2]
        rfl
      | some v =>
        have hdel := hok (stringsTrimSpace sub) (by simp) v hget
        simp only [Run.bind_perform, hdel, ih2]
        rfl

theorem DeleteData_eq (r : MetadataRepo) (nodePath : String) (subs : List String)
    (hsubs : checkSubs subs = none)
    (hok : ∀ t ∈ deleteDataTargets nodePath subs, ∀ v, (r.data.Get t).2 = some v →
      r.storeClient.Delete t v.isDir = none) :
    DeleteData r nodePath subs =
      ⟨(deleteDataTargets nodePath subs).flatMap (fun t =>
          Op.dataGet t ::
            match (r.data.Get t).2 with
            | some v => [Op.backendDelete t v.isDir]
            | none => []),
        .ok none⟩ := by
  cases subs with
  | nil =>
    simp only [DeleteData, checkSubs, List.length_nil, Nat.lt_irrefl, if_false, Run.bind_eq,
      Run.bind_perform, deleteDataTargets, if_true, List.flatMap_cons, List.flatMap_nil,
      List.append_nil]
    cases hget : (r.data.Get nodePath).2 with
    | none => rfl
    | some v =>
      have hdel := hok nodePath (by simp [deleteDataTargets]) v hget
      simp only [Run.perform, hdel]
  | cons s tl =>
    have hT : deleteDataTargets nodePath (s :: tl) =
        (s :: tl).map (fun sub => pathJoin [nodePath, sub]) := by
      simp [deleteDataTargets]
    rw [hT] at hok ⊢
    simp only [DeleteData, hsubs, List.length_cons, Nat.succ_pos, if_true, gt_iff_lt,
      Nat.zero_lt_succ]
    exact DeleteData_range_eq r nodePath (s :: tl) (fun sub hs v hv =>
      hok _ (List.mem_map.mpr ⟨sub, hs, rfl⟩) v hv)

theorem DeleteMapping_eq (r : MetadataRepo) (nodePath : String) (subs : List String)
    (hsubs : checkSubs subs = none)
    (hok : ∀ t ∈ deleteMappingTargets nodePath subs, ∀ v, (r.mapping.Get t).2 = some v →
      r.storeClient.DeleteMapping t v.isDir = none) :
    DeleteMapping r nodePath subs =
      ⟨(deleteMappingTargets nodePath subs).flatMap (fun t =>
          Op.mappingGet t ::
            match (r.mapping.Get t).2 with
            | some v => [Op.backendDeleteMapping t v.isDir]
            | none => []),
        .ok none⟩ := by
  cases subs with
  | nil =>
    simp only [DeleteMapping, checkSubs, List.length_nil, Nat.lt_irrefl, if_false, Run.bind_eq,
      Run.bind_perform, deleteMappingTargets, if_true, List.flatMap_cons, List.flatMap_nil,
      List.append_nil]
    cases hget : (r.mapping.Get nodePath).2 with
    | none => rfl
    | some v =>
      have hdel := hok nodePath (by simp [deleteMappingTargets]) v hget
      simp only [Run.perform, hdel]
  | cons s tl =>
    have hT : deleteMappingTargets nodePath (s :: tl) =
        (((s :: tl).map stringsTrimSpace).filter (fun sub => sub ≠ "")).map
          (fun sub => pathJoin [nodePath, sub]) := by
      simp [deleteMappingTargets]
    rw [hT] at hok ⊢
    simp only [DeleteMapping, hsubs, List.length_cons, Nat.succ_pos, if_true, gt_iff_lt,
      Nat.zero_lt_succ]
    exact DeleteMapping_range_eq r nodePath (s :: tl) (fun sub hs v hv =>
      hok _ (List.mem_map.mpr ⟨sub, hs, rfl⟩) v hv)

theorem mem_delete_ops (get : String → Option Node) (targets : List String)
    (t : String) (d : Bool) :
    Op.backendDelete t d ∈ targets.flatMap (fun t =>
        Op.dataGet t ::
          match get t with
          | some v => [Op.backendDelete t v.isDir]
          | none => []) ↔
      t ∈ targets ∧ ∃ v, get t = some v ∧ d = v.isDir := by
  simp only [List.mem_flatMap, List.mem_cons]
  constructor
  · rintro ⟨t2, ht2, h | h⟩
    · exact Op.noConfusion h
    · cases hget : get t2 with
      | none => simp [hget] at h
      | some v =>
        simp only [hget, List.mem_singleton, Op.backendDelete.injEq] at h
        obtain ⟨rfl, rfl⟩ := h
        exact ⟨ht2, v, hget, rfl⟩
  · rintro ⟨ht, v, hget, rfl⟩
    exact ⟨t, ht, Or.inr (by simp [hget])⟩

theorem mem_deleteMapping_ops (get : String → Option Node) (targets : List String)
    (t : String) (d : Bool) :
    Op.backendDeleteMapping t d ∈ targets.flatMap (fun t =>
        Op.mappingGet t ::
          match get t with
          | some v => [Op.backendDeleteMapping t v.isDir]
          | none => []) ↔
      t ∈ targets ∧ ∃ v, get t = some v ∧ d = v.isDir := by
  simp only [List.mem_flatMap, List.mem_cons]
  constructor
  · rintro ⟨t2, ht2, h | h⟩
    · exact Op.noConfusion h
    · cases hget : get t2 with
      | none => simp [hget] at h
      | some v =>
        simp only [hget, List.mem_singleton, Op.backendDeleteMapping.injEq] at h
        obtain ⟨rfl, rfl⟩ := h
        exact ⟨ht2, v, hget, rfl⟩
  · rintro ⟨ht, v, hget, rfl⟩
    exact ⟨t, ht, Or.inr (by simp [hget])⟩

/-! ## Claims C14 to C16 and C20: deleting -/

/-- C14. When at least one element of `subs` contains the character `/`,
`DeleteData(nodePath, subs...)` and `DeleteMapping(nodePath, subs...)` return an
error and perform no operation at all: no backend delete is issued, not even for
the valid names that precede the offending one. -/
theorem C14_delete_subs_all_or_nothing (r : MetadataRepo) (nodePath : String)
    (subs : List String) (h : ∃ s ∈ subs, containsSlash s = true) :
    DeleteData r nodePath subs = ⟨[], .ok (some "Sub node must not a path.")⟩ ∧
      DeleteMapping r nodePath subs = ⟨[], .ok (some "Sub node must not a path.")⟩ := by
  have hc := checkSubs_some subs h
  constructor
  · simp only [DeleteData, hc]
    rfl
  · simp only [DeleteMapping, hc]
    rfl

/-- Witness of C14: the existing child `h1` precedes the offending `a/b`. -/
theorem C14_delete_subs_all_or_nothing_witness :
    DeleteData sampleRepoTwoHosts "/hosts" ["h1", "a/b"] =
        ⟨[], .ok (some "Sub node must not a path.")⟩ ∧
      DeleteMapping sampleRepoTwoHosts "/hosts" ["h1", "a/b"] =
        ⟨[], .ok (some "Sub node must not a path.")⟩ :=
  C14_delete_subs_all_or_nothing sampleRepoTwoHosts "/hosts" ["h1", "a/b"]
    ⟨"a/b", by simp, by decide⟩

/-- C15 on the code. `DeleteData("/hosts/h1", "")` does not skip the empty name:
it reads `/hosts/h1` and asks the backend to delete that directory itself.
`DeleteMapping` skips the empty name on every repository and path. -/
theorem C15_empty_sub_not_skipped_by_deleteData :
    DeleteData sampleRepoTwoHosts "/hosts/h1" [""] =
        ⟨[.dataGet "/hosts/h1", .backendDelete "/hosts/h1" true], .ok none⟩ ∧
      ∀ (r : MetadataRepo) (nodePath : String),
        DeleteMapping r nodePath [""] = ⟨[], .ok none⟩ := by
  constructor
  · decide
  · intro r nodePath
    have h1 : checkSubs [""] = none := by decide
    have h2 : stringsTrimSpace "" = "" := by decide
    simp only [DeleteMapping, h1, DeleteMapping.range, h2, if_true, List.length_cons,
      List.length_nil, gt_iff_lt, Nat.zero_lt_succ]
    rfl

/-- C16, as the specification states it, fails. After the backend fails on
`/hosts/h1`, no delete is issued for the target `/hosts/h2` although the data
store holds a value there; and `DeleteMapping("/10.0.0.1", "")` issues no delete
for the target `join("/10.0.0.1", "")` although the mapping store holds a value
there. -/
theorem C16_delete_dispatch_counterexample :
    (checkSubs ["h1", "h2"] = none ∧
      (sampleRepoFailing.data.Get (pathJoin ["/hosts", "h2"])).2 = some (.leaf "n2") ∧
      DeleteData sampleRepoFailing "/hosts" ["h1", "h2"] =
        ⟨[.dataGet "/hosts/h1", .backendDelete "/hosts/h1" true],
          .ok (some "backend unavailable")⟩) ∧
    ((sampleRepoTwoHosts.mapping.Get (pathJoin ["/10.0.0.1", ""])).2 ≠ none ∧
      DeleteMapping sampleRepoTwoHosts "/10.0.0.1" [""] = ⟨[], .ok none⟩) := by
  decide

/-- C16, amended. Let `subs` pass `checkSubs`. For `DeleteData` with no empty
name in `subs`, whose targets are `nodePath` itself when `subs` is empty and
`join(nodePath, sub)` for each `sub` otherwise: if every backend delete that the
store contents call for returns no error, then the call returns no error, and the
backend `Delete` is invoked for a path with a flag if and only if the path is a
target, the data store holds a value there, and the flag tells whether that value
is a directory (so no backend call is made when every target is absent). The
same holds for `DeleteMapping` over the mapping store, whose targets are
`nodePath` itself when `subs` is empty and `join(nodePath, TrimSpace(sub))` for
each `sub` whose trimmed form is not empty otherwise. -/
theorem C16_delete_dispatch (r : MetadataRepo) (nodePath : String) (subs : List String)
    (hsubs : checkSubs subs = none) :
    ((∀ s ∈ subs, s ≠ "") →
        (∀ t ∈ deleteDataTargets nodePath subs, ∀ v, (r.data.Get t).2 = some v →
          r.storeClient.Delete t v.isDir = none) →
        (DeleteData r nodePath subs).res = .ok none ∧
        ∀ t d, Op.backendDelete t d ∈ (DeleteData r nodePath subs).ops ↔
          t ∈ deleteDataTargets nodePath subs ∧
            ∃ v, (r.data.Get t).2 = some v ∧ d = v.isDir) ∧
    ((∀ t ∈ deleteMappingTargets nodePath subs, ∀ v, (r.mapping.Get t).2 = some v →
          r.storeClient.DeleteMapping t v.isDir = none) →
        (DeleteMapping r nodePath subs).res = .ok none ∧
        ∀ t d, Op.backendDeleteMapping t d ∈ (DeleteMapping r nodePath subs).ops ↔
          t ∈ deleteMappingTargets nodePath subs ∧
            ∃ v, (r.mapping.Get t).2 = some v ∧ d = v.isDir) := by
  constructor
  · intro _ hok
    rw [DeleteData_eq r nodePath subs hsubs hok]
    exact ⟨rfl, fun t d => mem_delete_ops (fun p => (r.data.Get p).2) _ t d⟩
  · intro hok
    rw [DeleteMapping_eq r nodePath subs hsubs hok]
    exact ⟨rfl, fun t d => mem_deleteMapping_ops (fun p => (r.mapping.Get p).2) _ t d⟩

/-- Witness of the amended C16: deleting the children `h1` (a directory), `h2`
(a leaf) and `h3` (absent) of `/hosts`, and the entries `host` and `nope` of
the mapping of `10.0.0.1`. -/
theorem C16_delete_dispatch_witness :
    ((DeleteData sampleRepoTwoHosts "/hosts" ["h1", "h2", "h3"]).res = .ok none ∧
        ∀ t d, Op.backendDelete t d ∈
            (DeleteData sampleRepoTwoHosts "/hosts" ["h1", "h2", "h3"]).ops ↔
          t ∈ deleteDataTargets "/hosts" ["h1", "h2", "h3"] ∧
            ∃ v, (sampleRepoTwoHosts.data.Get t).2 = some v ∧ d = v.isDir) ∧
      ((DeleteMapping sampleRepoTwoHosts "/10.0.0.1" [" host", "nope"]).res = .ok none ∧
        ∀ t d, Op.backendDeleteMapping t d ∈
            (DeleteMapping sampleRepoTwoHosts "/10.0.0.1" [" host", "nope"]).ops ↔
          t ∈ deleteMappingTargets "/10.0.0.1" [" host", "nope"] ∧
            ∃ v, (sampleRepoTwoHosts.mapping.Get t).2 = some v ∧ d = v.isDir) :=
  ⟨(C16_delete_dispatch sampleRepoTwoHosts "/hosts" ["h1", "h2", "h3"] (by decide)).1
      (by decide) (fun _ _ _ _ => rfl),
    (C16_delete_dispatch sampleRepoTwoHosts "/10.0.0.1" [" host", "nope"] (by decide)).2
      (fun _ _ _ _ => rfl)⟩

/-- C20 on the code. `checkSubs` accepts the names `..`, `.` and the empty name,
which contain no `/`. With `..`, `DeleteMapping("/10.0.0.1/net", "..")` asks the
backend to delete `/10.0.0.1` and `DeleteData("/hosts/h1", "..")` to delete
`/hosts`, the parents of the paths given; with `.` or the empty name `DeleteData`
deletes the path given itself. None of these is a direct child. -/
theorem C20_delete_escapes_direct_children :
    checkSubs [".."] = none ∧ checkSubs ["."] = none ∧ checkSubs [""] = none ∧
      DeleteMapping sampleRepoTwoHosts "/10.0.0.1/net" [".."] =
        ⟨[.mappingGet "/10.0.0.1", .backendDeleteMapping "/10.0.0.1" true], .ok none⟩ ∧
      DeleteData sampleRepoTwoHosts "/hosts/h1" [".."] =
        ⟨[.dataGet "/hosts", .backendDelete "/hosts" true], .ok none⟩ ∧
      DeleteData sampleRepoTwoHosts "/hosts/h1" ["."] =
        ⟨[.dataGet "/hosts/h1", .backendDelete "/hosts/h1" true], .ok none⟩ ∧
      DeleteData sampleRepoTwoHosts "/hosts/h1" [""] =
        ⟨[.dataGet "/hosts/h1", .backendDelete "/hosts/h1" true], .ok none⟩ ∧
      ¬ IsDirectChild "/10.0.0.1/net" "/10.0.0.1" ∧
      ¬ IsDirectChild "/hosts/h1" "/hosts" ∧
      ¬ IsDirectChild "/hosts/h1" "/hosts/h1" := by
  have h1 : pathSegments "/10.0.0.1/net" = ["10.0.0.1", "net"] := by decide
  have h2 : pathSegments "/10.0.0.1" = ["10.0.0.1"] := by decide
  have h3 : pathSegments "/hosts/h1" = ["hosts", "h1"] := by decide
  have h4 : pathSegments "/hosts" = ["hosts"] := by decide
  refine ⟨by decide, by decide, by decide, by decide, by decide, by decide, by decide,
    ?_, ?_, ?_⟩
  · rintro ⟨s, hs⟩
    rw [h1, h2] at hs
    exact absurd (congrArg List.length hs) (by simp)
  · rintro ⟨s, hs⟩
    rw [h3, h4] at hs
    exact absurd (congrArg List.length hs) (by simp)
  · rintro ⟨s, hs⟩
    rw [h3] at hs
    exact absurd (congrArg List.length hs) (by simp)

/-! ## Claims C17 and C18: the client IP and the only-self gate of watching -/

/-- C17 on the code. With an empty client IP `Self` panics before any operation,
on every repository and path. `WatchSelf` has no such check: with an empty client
IP and the path `/` it reads the mapping tree at `/`, opens a watcher on it and a
data watcher for every link of every client, and returns a value. -/
theorem C17_watchSelf_accepts_missing_client_ip :
    (∀ (r : MetadataRepo) (nodePath : String),
        Self r "" nodePath = ⟨[], .error "clientIP must not be empty."⟩) ∧
      WatchSelf sampleExpand sampleFlatten sampleRepo "" "/" [.stop] =
        ⟨[.mappingGet "/", .mappingWatch "/", .dataWatch "/hosts/h1", .dataWatch "/hosts/h2",
            .watcherRemove, .mappingWatcherRemove],
          .ok (.returned (some (.dir [])) [])⟩ := by
  constructor
  · intro r nodePath
    rfl
  · decide

/-- C18. With `onlySelf = true`: when the normalized `nodePath` is not `/`,
`Watch` returns nothing, consumes no signal and performs no operation, so no
watcher is opened on the data store; when it is `/`, `Watch(ctx, ip, nodePath)` is
exactly `WatchSelf(ctx, ip, "/")`. -/
theorem C18_only_self_watch_gate (Expand : List (String × String) → String → Node)
    (Flatten : List (String × Node) → List (String × String))
    (r : MetadataRepo) (clientIP nodePath : String) (signals : List Signal)
    (honly : r.onlySelf = true) :
    (pathJoin ["/", nodePath] ≠ "/" →
        Watch Expand Flatten r clientIP nodePath signals = ⟨[], .ok (.returned none signals)⟩) ∧
      (pathJoin ["/", nodePath] = "/" →
        Watch Expand Flatten r clientIP nodePath signals =
          WatchSelf Expand Flatten r clientIP "/" signals) := by
  constructor
  · intro h
    simp only [Watch, honly, h, if_true, if_false]
    rfl
  · intro h
    simp only [Watch, honly, h, if_true]

/-- Witness of C18 on the sample repository in only-self mode. -/
theorem C18_only_self_watch_gate_witness :
    Watch sampleExpand sampleFlatten sampleRepoOnlySelf "10.0.0.1" "/hosts"
        [.event ⟨"update", "/hosts/h1/name", "n2"⟩, .timer] =
        ⟨[], .ok (.returned none [.event ⟨"update", "/hosts/h1/name", "n2"⟩, .timer])⟩ ∧
      Watch sampleExpand sampleFlatten sampleRepoOnlySelf "10.0.0.1" "//"
        [.event ⟨"update", "/host/name", "n2"⟩, .timer] =
        WatchSelf sampleExpand sampleFlatten sampleRepoOnlySelf "10.0.0.1" "/"
          [.event ⟨"update", "/host/name", "n2"⟩, .timer] :=
  ⟨(C18_only_self_watch_gate sampleExpand sampleFlatten sampleRepoOnlySelf "10.0.0.1" "/hosts"
      [.event ⟨"update", "/hosts/h1/name", "n2"⟩, .timer] rfl).1 (by decide),
    (C18_only_self_watch_gate sampleExpand sampleFlatten sampleRepoOnlySelf "10.0.0.1" "//"
      [.event ⟨"update", "/host/name", "n2"⟩, .timer] rfl).2 (by decide)⟩

/-! ## Claim C19: the first segment of a projection -/

theorem cleanChars_append_slash (l : List Char) (hl : l ≠ []) :
    cleanChars (l ++ ['/']) = cleanChars l := by
  cases l with
  | nil => exact absurd rfl hl
  | cons c cs =>
    have h : splitSlash (c :: cs ++ ['/']) = splitSlash (c :: cs) ++ [[]] := by
      rw [splitSlash_append_slash]
      simp [splitSlash]
    simp only [cleanChars, List.cons_append]
    rw [← List.cons_append, h, List.foldl_append]
    simp [cleanStep]

theorem pathJoin_link_empty (link : String) :
    pathJoin ["/", pathJoin [link, ""]] = pathJoin ["/", link] := by
  by_cases hl : link = ""
  · subst hl
    decide
  · have hd : link.data ≠ [] := fun e => hl (String.ext e)
    have h1 : pathJoin [link, ""] = ⟨cleanChars link.data⟩ := by
      simp only [pathJoin, List.dropWhile, hl, decide_False, pathClean, List.map, joinSlash]
      show String.mk (cleanChars (link.data ++ '/' :: [])) = _
      rw [cleanChars_append_slash _ hd]
    rw [pathJoin_root, pathJoin_root, h1]
    simp only
    rw [normSegs_cleanChars _ hd]

theorem store_get_link_empty (data : Store) (hnorm : data.Normalizes) (link : String) :
    data.Get (pathJoin [link, ""]) = data.Get link := by
  rw [hnorm (pathJoin [link, ""]), pathJoin_link_empty, ← hnorm link]

theorem mapGet_projection_absent (data : Store) (M : List (String × Node)) (k : String)
    (h : (M.any fun e => decide (e.1 = k)) = false) : mapGet (projection data M) k = none := by
  induction M with
  | nil => simp [projection, mapGet]
  | cons kv tl ih =>
    obtain ⟨k0, v⟩ := kv
    simp only [List.any_cons, Bool.or_eq_false_iff, decide_eq_false_iff_not] at h
    have ih2 := ih h.2
    simp only [projection]
    cases projection.entry data v with
    | none => exact ih2
    | some val => simp [mapGet, h.1, ih2]

theorem mapGet_projection (data : Store) (M : List (String × Node)) (k : String)
    (hu : Node.uniqueKeys.entries M = true) :
    mapGet (projection data M) k =
      match mapGet M k with
      | none => none
      | some v => projection.entry data v := by
  induction M with
  | nil => simp [projection, mapGet]
  | cons kv tl ih =>
    obtain ⟨k0, v⟩ := kv
    simp only [Node.uniqueKeys.entries, Bool.and_eq_true, Bool.not_eq_true'] at hu
    obtain ⟨⟨hk, _⟩, htl⟩ := hu
    have ih2 := ih htl
    by_cases h0 : k0 = k
    · subst h0
      simp only [projection, mapGet, if_true]
      cases hentry : projection.entry data v with
      | none => exact mapGet_projection_absent data tl k0 hk
      | some val => simp [mapGet]
    · simp only [projection, mapGet, h0, if_false]
      cases projection.entry data v with
      | none => exact ih2
      | some val => simpa [mapGet, h0] using ih2

theorem uniqueKeys_of_mapGet (M : List (String × Node)) (k : String) (v : Node)
    (hu : Node.uniqueKeys.entries M = true) (h : mapGet M k = some v) :
    v.uniqueKeys = true := by
  induction M with
  | nil => simp [mapGet] at h
  | cons kv tl ih =>
    obtain ⟨k0, v0⟩ := kv
    simp only [Node.uniqueKeys.entries, Bool.and_eq_true, Bool.not_eq_true'] at hu
    by_cases h0 : k0 = k
    · simp only [mapGet, h0, if_true, Option.some.injEq] at h
      rw [← h]
      exact hu.1.2
    · simp only [mapGet, h0, if_false] at h
      exact ih hu.2 h

theorem getMappingDatas_empty_path (r : MetadataRepo) (M : List (String × Node)) :
    getMappingDatas r (pathJoin []) (.dir M) = getMappingDatas r "/" (.dir M) := by
  have h1 : normSegs (pathJoin []).data = [] := by decide
  rw [getMappingDatas_dir, getMappingDatas_dir, h1, normSegs_root]

/-- C19. For a client IP with a directory mapping `M` and a single path segment
`k` (not empty, without `/`, different from `.` and `..`), `Self(ip, "/" ++ k)`
is the entry for `k` of `Self(ip, "/")`: both are absent, or both are present and
equal. The data store normalizes the paths it is given, and `M` is a Go map
(distinct keys in every directory). -/
theorem C19_projection_first_segment (r : MetadataRepo) (clientIP k : String)
    (M : List (String × Node))
    (hip : clientIP ≠ "")
    (hnorm : r.data.Normalizes)
    (huniq : (Node.dir M).uniqueKeys = true)
    (hmap : (r.mapping.Get (pathJoin ["/", clientIP])).2 = some (.dir M))
    (hne : k ≠ "") (hslash : containsSlash k = false) (hdot : k ≠ ".") (hdotdot : k ≠ "..") :
    ∃ root, (Self r clientIP "/").res = .ok (some (.dir root)) ∧
      (Self r clientIP ("/" ++ k)).res = .ok (mapGet root k) := by
  have hM : Node.uniqueKeys.entries M = true := by simpa [Node.uniqueKeys] using huniq
  have hk : NormalSeg k.data := by
    refine ⟨fun e => hne (String.ext e), fun e => hdot (String.ext e),
      fun e => hdotdot (String.ext e), ?_⟩
    simpa [containsSlash] using hslash
  have hsegs : normSegs (pathJoin ["/", "/" ++ k]).data = ([] ++ k :: []).map String.data := by
    rw [normSegs_pathJoin_root]
    show normSegs ('/' :: k.data) = [k.data]
    rw [normSegs_cons_slash]
    exact normSegs_joinSlash [k.data] (by simpa using hk)
  refine ⟨projection r.data M, ?_, ?_⟩
  · rw [Self_eq r clientIP "/" hip, hmap]
    simp only [pathJoin_root_root]
    exact getMappingDatas_root_res r hnorm (.dir M) huniq
  · rw [Self_eq r clientIP ("/" ++ k) hip, hmap]
    simp only
    rw [getMappingDatas_descend r [] (pathJoin ["/", "/" ++ k]) M M k [] hsegs rfl,
      mapGet_projection r.data M k hM]
    cases hget : mapGet M k with
    | none => rfl
    | some v =>
      cases v with
      | leaf link =>
        have hempty : pathJoin [] = "" := rfl
        simp only [getMappingData, Run.perform, projection.entry, hempty]
        rw [store_get_link_empty r.data hnorm link]
      | dir sub =>
        simp only [projection.entry]
        rw [getMappingDatas_empty_path]
        exact getMappingDatas_root_res r hnorm (.dir sub)
          (uniqueKeys_of_mapGet M k _ hM hget)

/-- Witness of C19 on the sample repository: the segments `host` (a link),
`net` (a submapping) and `nope` (absent). -/
theorem C19_projection_first_segment_witness :
    (∃ root, (Self sampleRepo "10.0.0.1" "/").res = .ok (some (.dir root)) ∧
        (Self sampleRepo "10.0.0.1" ("/" ++ "host")).res = .ok (mapGet root "host")) ∧
      (∃ root, (Self sampleRepo "10.0.0.1" "/").res = .ok (some (.dir root)) ∧
        (Self sampleRepo "10.0.0.1" ("/" ++ "net")).res = .ok (mapGet root "net")) ∧
      (∃ root, (Self sampleRepo "10.0.0.1" "/").res = .ok (some (.dir root)) ∧
        (Self sampleRepo "10.0.0.1" ("/" ++ "nope")).res = .ok (mapGet root "nope")) :=
  ⟨C19_projection_first_segment sampleRepo "10.0.0.1" "host"
      [("host", .leaf "/hosts/h1"), ("net", .dir [("peer", .leaf "/hosts/h2")])]
      (by decide) (treeStore_normalizes 7 _) (by decide) (by decide)
      (by decide) (by decide) (by decide) (by decide),
    C19_projection_first_segment sampleRepo "10.0.0.1" "net"
      [("host", .leaf "/hosts/h1"), ("net", .dir [("peer", .leaf "/hosts/h2")])]
      (by decide) (treeStore_normalizes 7 _) (by decide) (by decide)
      (by decide) (by decide) (by decide) (by decide),
    C19_projection_first_segment sampleRepo "10.0.0.1" "nope"
      [("host", .leaf "/hosts/h1"), ("net", .dir [("peer", .leaf "/hosts/h2")])]
      (by decide) (treeStore_normalizes 7 _) (by decide) (by decide)
      (by decide) (by decide) (by decide) (by decide)⟩

end Metad
